import Mathlib

/-!
Verification of the helPME dense `Matrix` utility (src/src/matrix.h) and of the
flat-call C boundary wrappers (the second source file).  The C++ code is shallowly
embedded below: matrices become a structure holding the two dimensions and the flat
row-major buffer (a total function `Nat → α`; the C++ buffer is the restriction to
addresses `< nRows * nCols`), fallible operations return `Except String`, and the
in-place transposition algorithm becomes a fuel-based recursion (the fuel `len` is an
upper bound on the cycle length of the permutation, so the embedded loop performs
exactly the iterations of the C++ do-while loop).
-/

namespace Helpme

/-- The `Matrix<Real>` data model: `nRows_`, `nCols_` and the flat row-major
buffer `data_`.  Addresses `≥ nRows * nCols` are outside the C++ allocation;
the model keeps the buffer total and all theorems quantify over valid indices only. -/
structure Mat (α : Type) where
  nRows : Nat
  nCols : Nat
  data : Nat → α

/-- `operator()(row, col)`: `*(data_ + row * nCols_ + col)`. -/
def Mat.get {α : Type} (M : Mat α) (row col : Nat) : α :=
  M.data (row * M.nCols + col)

/-- `std::swap(*(first + i), *(first + j))` on a buffer viewed as a function. -/
def swapFn {α : Type} (f : Nat → α) (i j : Nat) : Nat → α :=
  fun k => if k = i then f j else if k = j then f i else f k

/-- The index update `a = a == mn1 ? mn1 : (n * a) % mn1` of `transposeMemoryInPlace`. -/
def tmiStep (n mn1 a : Nat) : Nat :=
  if a = mn1 then mn1 else (n * a) % mn1

/-- The inner do-while loop of `transposeMemoryInPlace`: starting from index `a`,
repeatedly advance `a` with `tmiStep`, swap `buf[a]` with `buf[s]` (`s` is the
outer-loop index `cycle`), mark `a` visited, and stop when `a` returns to `s`.
The C++ loop terminates because the step function is a permutation; the fuel
argument is given a value large enough that it never runs out. -/
def tmiCycle {α : Type} (n mn1 s : Nat) :
    Nat → Nat → (Nat → α) → (Nat → Bool) → (Nat → α) × (Nat → Bool)
  | 0, _, buf, vis => (buf, vis)
  | fuel + 1, a, buf, vis =>
    let a2 := tmiStep n mn1 a
    let buf2 := swapFn buf a2 s
    let vis2 := fun k => if k = a2 then true else vis k
    if a2 = s then (buf2, vis2) else tmiCycle n mn1 s fuel a2 buf2 vis2

/-- The outer loop of `transposeMemoryInPlace`: `while (++cycle != last)`, skipping
visited indices and otherwise rotating the cycle through the current index. -/
def tmiOuter {α : Type} (n mn1 fuel : Nat) :
    List Nat → (Nat → α) → (Nat → Bool) → (Nat → α) × (Nat → Bool)
  | [], buf, vis => (buf, vis)
  | c :: rest, buf, vis =>
    if vis c then tmiOuter n mn1 fuel rest buf vis
    else
      let p := tmiCycle n mn1 c fuel c buf vis
      tmiOuter n mn1 fuel rest p.1 p.2

/-- `transposeMemoryInPlace(first, last, m)` with `len = last - first`:
`mn1 = len - 1`, `n = len / m`, visited bits all false, outer indices `1 .. len-1`. -/
def transposeMemoryInPlace {α : Type} (buf : Nat → α) (len m : Nat) : Nat → α :=
  (tmiOuter (len / m) (len - 1) len (List.range' 1 (len - 1)) buf (fun _ => false)).1

/-- `Matrix::transposeInPlace`: permute the linear buffer, then `std::swap(nCols_, nRows_)`. -/
def Mat.transposeInPlace {α : Type} (M : Mat α) : Mat α :=
  { nRows := M.nCols, nCols := M.nRows,
    data := transposeMemoryInPlace M.data (M.nRows * M.nCols) M.nCols }

/-- `Matrix::clone`: allocate a fresh zero matrix of the same shape
(`Matrix(nRows_, nCols_)` zero-fills) and `std::copy` the `nRows*nCols` elements. -/
def Mat.clone {α : Type} [Zero α] (M : Mat α) : Mat α :=
  { nRows := M.nRows, nCols := M.nCols,
    data := fun i => if i < M.nRows * M.nCols then M.data i else 0 }

/-- `Matrix::transpose`: clone, then transpose the clone in place. -/
def Mat.transpose {α : Type} [Zero α] (M : Mat α) : Mat α :=
  M.clone.transposeInPlace

/-- The allocating constructor `Matrix(nRows, nCols)`: the buffer is
`helpme::vector<Real>(nRows * nCols, 0)`, i.e. `nRows * nCols` copies of zero. -/
def mkMatrix (nRows nCols : Nat) : Mat ℚ :=
  { nRows := nRows, nCols := nCols,
    data := fun i => (List.replicate (nRows * nCols) (0 : ℚ)).getD i 0 }

/-- The inner `link` loop of `Matrix::multiply`: `*output += rowPtr[link] * other[link][col]`,
accumulating on top of the start value found in the freshly constructed product matrix. -/
def mulEntry (A B : Mat ℚ) (start : ℚ) (row col : Nat) : ℚ :=
  (List.range A.nCols).foldl
    (fun acc link => acc + A.data (row * A.nCols + link) * B.data (link * B.nCols + col)) start

/-- The product matrix built by `Matrix::multiply`: the freshly constructed
`Matrix(nRows_, other.nCols_)` (zero-filled by the constructor) after the pointer
walk has accumulated every cell `addr = row * other.nCols + col` with the `link` loop. -/
def mulMat (A B : Mat ℚ) : Mat ℚ :=
  { nRows := A.nRows, nCols := B.nCols,
    data := fun addr =>
      if addr < A.nRows * B.nCols then
        mulEntry A B ((mkMatrix A.nRows B.nCols).data addr) (addr / B.nCols) (addr % B.nCols)
      else (mkMatrix A.nRows B.nCols).data addr }

/-- `Matrix::multiply`: throws on `nCols_ != other.nRows_`, otherwise returns the
accumulated product matrix. -/
def Mat.multiply (A B : Mat ℚ) : Except String (Mat ℚ) :=
  if A.nCols ≠ B.nRows then
    .error "Attempting to multiply matrices with incompatible dimensions."
  else .ok (mulMat A B)

/-- The determinant expression computed at the head of the 3x3 branch of `Matrix::inverse`. -/
def det3 (M : Mat ℚ) : ℚ :=
  M.data 0 * (M.data 4 * M.data 8 - M.data 7 * M.data 5) -
    M.data 1 * (M.data 3 * M.data 8 - M.data 5 * M.data 6) +
    M.data 2 * (M.data 3 * M.data 7 - M.data 4 * M.data 6)

/-- The nine assignments of the 3x3 branch of `Matrix::inverse`, written into the
freshly allocated `matrixInverse(nRows_, nRows_)`. -/
def inverse3 (M : Mat ℚ) : Mat ℚ :=
  let dInv := 1 / det3 M
  { nRows := 3, nCols := 3,
    data := fun i =>
      if i = 0 then (M.data 4 * M.data 8 - M.data 7 * M.data 5) * dInv
      else if i = 1 then (M.data 2 * M.data 7 - M.data 1 * M.data 8) * dInv
      else if i = 2 then (M.data 1 * M.data 5 - M.data 2 * M.data 4) * dInv
      else if i = 3 then (M.data 5 * M.data 6 - M.data 3 * M.data 8) * dInv
      else if i = 4 then (M.data 0 * M.data 8 - M.data 2 * M.data 6) * dInv
      else if i = 5 then (M.data 3 * M.data 2 - M.data 0 * M.data 5) * dInv
      else if i = 6 then (M.data 3 * M.data 7 - M.data 6 * M.data 4) * dInv
      else if i = 7 then (M.data 6 * M.data 1 - M.data 0 * M.data 7) * dInv
      else if i = 8 then (M.data 0 * M.data 4 - M.data 3 * M.data 1) * dInv
      else (mkMatrix 3 3).data i }

/-- The default threshold `1e-10f` used by `assertSymmetric` and `isNearZero`
(modelled as the exact rational `10⁻¹⁰`; the C++ literal is the nearest float). -/
def defaultThreshold : ℚ := 1 / 10 ^ 10

/-- `Matrix::assertSymmetric` as a boolean check: the C++ loop throws as soon as
`|M[row][col] - M[col][row]| > threshold` for some `col < row`, so it passes exactly
when all those pairs differ by at most the threshold. -/
def Mat.symmetricWithin (M : Mat ℚ) (threshold : ℚ) : Bool :=
  (List.range M.nRows).all fun row =>
    (List.range row).all fun col =>
      decide (|M.data (row * M.nCols + col) - M.data (col * M.nCols + row)| ≤ threshold)

/-- `Matrix::isNearZero`: `!any_of(|val| > threshold)` over the whole flat buffer. -/
def Mat.isNearZero (M : Mat ℚ) (threshold : ℚ) : Bool :=
  (List.range (M.nRows * M.nCols)).all fun i => decide (|M.data i| ≤ threshold)

/-- `SortOrder` of `Matrix`. -/
inductive SortOrder | Ascending | Descending
deriving DecidableEq

/-- The output of one call to the LAPACK `dgeev`-style eigensolver wrapped by
`LapackWrapper<Real>::diagonalizer()`.  Modelled from the spec: LAPACK is an external
collaborator ("delegates to a real general eigensolver collaborator"); the wrapper
writes the real and imaginary eigenvalue components, the eigenvector rows (the
row-major view of the Fortran column-major vector matrix) and an `info` status. -/
structure EigenSolverOut where
  evalsReal : Nat → ℚ
  evalsImag : Nat → ℚ
  evecs : Nat → ℚ
  info : Int

/-- The `eigenInfo` struct of `Matrix::diagonalize`: real component, imaginary
component, and the eigenvector (a row of the raw solver output). -/
structure EigenInfo where
  valueReal : ℚ
  valueImag : ℚ
  vector : List ℚ
deriving DecidableEq

instance : Inhabited EigenInfo := ⟨⟨0, 0, []⟩⟩

/-- The `eigenInfo` tuple list built by `Matrix::diagonalize` before sorting:
entry `val` holds `evalsReal[val][0]`, `evalsImag[val][0]` and the raw solver row
`evecs[val]`. -/
def eigenTuples (R : Nat) (solver : EigenSolverOut) : List EigenInfo :=
  (List.range R).map fun val =>
    ⟨solver.evalsReal val, solver.evalsImag val,
      (List.range R).map fun c => solver.evecs (val * R + c)⟩

/-- The sorted tuple list: `std::sort` with `eigenInfo::operator<` (key `valueReal`),
then `std::reverse` when the requested order is `Descending`. -/
def sortedTuples (R : Nat) (solver : EigenSolverOut) (order : SortOrder) : List EigenInfo :=
  let sortedAsc := (eigenTuples R solver).mergeSort fun x y => decide (x.valueReal ≤ y.valueReal)
  match order with
  | .Ascending => sortedAsc
  | .Descending => sortedAsc.reverse

/-- The triple returned by a successful `Matrix::diagonalize`: the sorted eigenvalue
component columns, and the eigenvector matrix (sorted vectors written into the
scratch rows, copied to `evecs`, then transposed in place so vectors sit in columns). -/
def diagResult (R : Nat) (solver : EigenSolverOut) (order : SortOrder) :
    Mat ℚ × Mat ℚ × Mat ℚ :=
  let sorted := sortedTuples R solver order
  let evalsReal : Mat ℚ :=
    { nRows := R, nCols := 1,
      data := fun i => if i < R then (sorted.getD i default).valueReal
                       else (mkMatrix R 1).data i }
  let evalsImag : Mat ℚ :=
    { nRows := R, nCols := 1,
      data := fun i => if i < R then (sorted.getD i default).valueImag
                       else (mkMatrix R 1).data i }
  let evecsRows : Mat ℚ :=
    { nRows := R, nCols := R,
      data := fun a => if a < R * R then (sorted.getD (a / R) default).vector.getD (a % R) 0
                       else (mkMatrix R R).data a }
  (evalsReal, evalsImag, evecsRows.transposeInPlace)

/-- `Matrix::diagonalize(order)`: throws on a non-square matrix, calls the external
eigensolver (its output is the `solver` argument), throws if `info` is nonzero, and
otherwise returns the sorted triple. -/
def Mat.diagonalize (M : Mat ℚ) (solver : EigenSolverOut) (order : SortOrder) :
    Except String (Mat ℚ × Mat ℚ × Mat ℚ) :=
  if M.nRows ≠ M.nCols then .error "Attempting to diagonalize a non-square matrix."
  else if solver.info ≠ 0 then .error "Something went wrong during diagonalization!"
  else .ok (diagResult M.nRows solver order)

/-- `Matrix::applyOperationToEachElement`: apply `f` to every element of the buffer. -/
def Mat.applyToEach (M : Mat ℚ) (f : ℚ → ℚ) : Mat ℚ :=
  { M with data := fun i => if i < M.nRows * M.nCols then f (M.data i) else M.data i }

/-- `Matrix::applyOperation(function)`: assert symmetry, diagonalize (ascending, the
default order), reject complex eigenvalues, transform each eigenvalue by `f`, scale
row `i` of `Vᵀ` by the transformed eigenvalue and return `V * (scaled Vᵀ)`. -/
def Mat.applyOperation (M : Mat ℚ) (solver : EigenSolverOut) (f : ℚ → ℚ) :
    Except String (Mat ℚ) :=
  if ¬ M.symmetricWithin defaultThreshold then
    .error "Unexpected non-symmetric matrix found."
  else do
    let (evalsReal, evalsImag, evecs) ← M.diagonalize solver .Ascending
    if ¬ evalsImag.isNearZero defaultThreshold then
      throw "Unexpected complex eigenvalues encountered when applying operator to Matrix."
    let evalsReal2 := evalsReal.applyToEach f
    let evecsT := evecs.transpose
    let scaled : Mat ℚ :=
      { evecsT with
        data := fun a =>
          if a < M.nRows * M.nRows then evecsT.data a * evalsReal2.get (a / M.nRows) 0
          else evecsT.data a }
    evecs.multiply scaled

/-- `Matrix::inverse`: assert square; the 3x3 case uses the closed-form cofactor
formula, every other size delegates to `applyOperation` with `element = 1 / element`
(so the eigensolver output is a parameter here as well). -/
def Mat.inverse (M : Mat ℚ) (solver : EigenSolverOut) : Except String (Mat ℚ) :=
  if M.nRows ≠ M.nCols then
    .error "Attepting to perform a square matrix operation on a non-square matrix!"
  else if M.nRows = 3 then .ok (inverse3 M)
  else M.applyOperation solver fun x => 1 / x

/-- `Matrix::almostEquals`, floating-point overload: throws on size mismatch,
otherwise `std::equal` over the flat buffers with `(a-b) < tol && (a-b) > -tol`. -/
def Mat.almostEquals (A B : Mat ℚ) (tolerance : ℚ) : Except String Bool :=
  if A.nRows ≠ B.nRows ∨ A.nCols ≠ B.nCols then
    .error "Attepting to compare matrices of different sizes!"
  else
    .ok ((List.range (A.nRows * A.nCols)).all fun i =>
      decide (A.data i - B.data i < tolerance ∧ A.data i - B.data i > -tolerance))

/-- `Matrix::almostEquals`, complex overload: the element type is a pair (real part,
imaginary part), `tol = std::real(tolerance)`, and both components are compared. -/
def Mat.almostEqualsC (A B : Mat (ℚ × ℚ)) (tolerance : ℚ × ℚ) : Except String Bool :=
  if A.nRows ≠ B.nRows ∨ A.nCols ≠ B.nCols then
    .error "Attepting to compare matrices of different sizes!"
  else
    let tol := tolerance.1
    .ok ((List.range (A.nRows * A.nCols)).all fun i =>
      decide ((A.data i).1 - (B.data i).1 < tol ∧ (A.data i).1 - (B.data i).1 > -tol ∧
              (A.data i).2 - (B.data i).2 < tol ∧ (A.data i).2 - (B.data i).2 > -tol))

/-- `Matrix::sliceIterator`: a strided window `(begin_, end_, stride_)` into a flat
buffer; the buffer itself is passed to each operation. -/
structure SliceIt where
  begin_idx : Nat
  end_idx : Nat
  stride : Nat

/-- `sliceIterator::size()`: `std::distance(begin_, end_) / stride_`. -/
def SliceIt.size (s : SliceIt) : Nat := (s.end_idx - s.begin_idx) / s.stride

/-- The range-for over a slice (`for (auto& element : *this)`): the pointer starts at
`begin_`, advances by `stride_` and stops on hitting `end_`, which touches exactly
`size()` elements (the C++ loop is only well defined when the stride divides the
distance; the recursion below performs that number of updates). -/
def sliceForEach (f : ℚ → ℚ) (begin_idx stride : Nat) (buf : Nat → ℚ) : Nat → Nat → ℚ
  | 0 => buf
  | count + 1 =>
    let b := sliceForEach f begin_idx stride buf count
    fun j => if j = begin_idx + count * stride then f (b j) else b j

/-- `sliceIterator::operator*=(Real val)`. -/
def SliceIt.mulScalar (s : SliceIt) (buf : Nat → ℚ) (val : ℚ) : Nat → ℚ :=
  sliceForEach (fun x => x * val) s.begin_idx s.stride buf s.size

/-- `sliceIterator::operator/=(Real val)`: computes `invVal = 1 / val` and multiplies. -/
def SliceIt.divScalar (s : SliceIt) (buf : Nat → ℚ) (val : ℚ) : Nat → ℚ :=
  sliceForEach (fun x => x * (1 / val)) s.begin_idx s.stride buf s.size

/-- `sliceIterator::operator-=(Real val)`. -/
def SliceIt.subScalar (s : SliceIt) (buf : Nat → ℚ) (val : ℚ) : Nat → ℚ :=
  sliceForEach (fun x => x - val) s.begin_idx s.stride buf s.size

/-- `sliceIterator::operator+=(Real val)`. -/
def SliceIt.addScalar (s : SliceIt) (buf : Nat → ℚ) (val : ℚ) : Nat → ℚ :=
  sliceForEach (fun x => x + val) s.begin_idx s.stride buf s.size

/-- `sliceIterator::operator-(const sliceIterator&)`: `assertSameSize(other)`,
`assertContiguous(*this)`, `assertContiguous(other)`, then `std::transform` of the
contiguous ranges into a fresh `Matrix(1, size())`. -/
def SliceIt.subSlice (a : SliceIt) (bufA : Nat → ℚ) (b : SliceIt) (bufB : Nat → ℚ) :
    Except String (Mat ℚ) :=
  if a.size ≠ b.size then
    .error "Slice operations only supported for slices of the same size."
  else if a.stride ≠ 1 then
    .error "Slice operations called on operation that is only allowed for contiguous data."
  else if b.stride ≠ 1 then
    .error "Slice operations called on operation that is only allowed for contiguous data."
  else
    .ok { nRows := 1, nCols := a.size,
          data := fun i =>
            if i < a.end_idx - a.begin_idx then
              bufA (a.begin_idx + i) - bufB (b.begin_idx + i)
            else (mkMatrix 1 a.size).data i }

/-- `sliceIterator::operator-=(const sliceIterator&)`: same assertions, then
`std::transform` writing `a - b` back into this slice's contiguous range. -/
def SliceIt.subAssignSlice (a : SliceIt) (bufA : Nat → ℚ) (b : SliceIt) (bufB : Nat → ℚ) :
    Except String (Nat → ℚ) :=
  if a.size ≠ b.size then
    .error "Slice operations only supported for slices of the same size."
  else if a.stride ≠ 1 then
    .error "Slice operations called on operation that is only allowed for contiguous data."
  else if b.stride ≠ 1 then
    .error "Slice operations called on operation that is only allowed for contiguous data."
  else
    .ok fun j =>
      if a.begin_idx ≤ j ∧ j < a.end_idx then bufA j - bufB (b.begin_idx + (j - a.begin_idx))
      else bufA j

/-- `sliceIterator::operator+=(const sliceIterator&)`: same assertions, writing `a + b`. -/
def SliceIt.addAssignSlice (a : SliceIt) (bufA : Nat → ℚ) (b : SliceIt) (bufB : Nat → ℚ) :
    Except String (Nat → ℚ) :=
  if a.size ≠ b.size then
    .error "Slice operations only supported for slices of the same size."
  else if a.stride ≠ 1 then
    .error "Slice operations called on operation that is only allowed for contiguous data."
  else if b.stride ≠ 1 then
    .error "Slice operations called on operation that is only allowed for contiguous data."
  else
    .ok fun j =>
      if a.begin_idx ≤ j ∧ j < a.end_idx then bufA j + bufB (b.begin_idx + (j - a.begin_idx))
      else bufA j

/-- The exceptions that can cross an internal call in the C wrapper files:
a `std::runtime_error` carrying a message, or anything else (`catch (...)`). -/
inductive CxxError
  | runtimeError (msg : String)
  | unknown

/-- What a flat-call boundary entry point does to the process: either it returns the
wrapped operation's value, or it writes a diagnostic to `std::cerr` and calls
`exit(code)`. -/
inductive BoundaryOutcome (α : Type)
  | ok (value : α)
  | exited (stderrOutput : String) (exitCode : Nat)

/-- The try/catch shape shared by every flat-call wrapper (`helpme_createD`,
`helpme_setupD`, `helpme_set_lattice_vectorsD`, `helpme_compute_EF_recD` and the `F`
variants): a `runtime_error` prints `e.what()` and exits `1`; any other exception
prints the wrapper-specific "An unknown error occured in ..." message and exits `1`. -/
def flatWrap {α : Type} (unknownMsg : String) (op : Except CxxError α) : BoundaryOutcome α :=
  match op with
  | .ok v => .ok v
  | .error (.runtimeError msg) => .exited msg 1
  | .error .unknown => .exited unknownMsg 1

/-- `helpme_createD` (the wrapped operation `new PMEInstanceD()` is abstracted by `op`). -/
def helpme_createD {α : Type} (op : Except CxxError α) : BoundaryOutcome α :=
  flatWrap "An unknown error occured in helpme_createD" op

/-- `helpme_createF`. -/
def helpme_createF {α : Type} (op : Except CxxError α) : BoundaryOutcome α :=
  flatWrap "An unknown error occured in helpme_createF" op

/-- `helpme_setupD` (the wrapped `pme->setup(...)` call is abstracted by `op`). -/
def helpme_setupD (op : Except CxxError Unit) : BoundaryOutcome Unit :=
  flatWrap "An unknown error occured in helpme_setupD" op

/-- `helpme_setupF`. -/
def helpme_setupF (op : Except CxxError Unit) : BoundaryOutcome Unit :=
  flatWrap "An unknown error occured in helpme_setupF" op

/-- `helpme_set_lattice_vectorsD`. -/
def helpme_set_lattice_vectorsD (op : Except CxxError Unit) : BoundaryOutcome Unit :=
  flatWrap "An unknown error occured in helpme_set_lattice_vectorsD" op

/-- `helpme_set_lattice_vectorsF`. -/
def helpme_set_lattice_vectorsF (op : Except CxxError Unit) : BoundaryOutcome Unit :=
  flatWrap "An unknown error occured in helpme_set_lattice_vectorsF" op

/-- `helpme_compute_EF_recD` (the wrapped `pme->computeEFRec(...)` returns a `double`,
modelled as `ℚ`; its catch-all message says `helpme_run_pmeD` in the source). -/
def helpme_compute_EF_recD (op : Except CxxError ℚ) : BoundaryOutcome ℚ :=
  flatWrap "An unknown error occured in helpme_run_pmeD" op

/-- `helpme_compute_EF_recF`. -/
def helpme_compute_EF_recF (op : Except CxxError ℚ) : BoundaryOutcome ℚ :=
  flatWrap "An unknown error occured in helpme_run_pmeF" op

/-- A concrete eigensolver output used in concrete scenarios: every eigenvalue 1
with zero imaginary part, identity eigenvector rows, success status. -/
def solverOnes : EigenSolverOut :=
  ⟨fun _ => 1, fun _ => 0, fun i => if i = 0 ∨ i = 3 then 1 else 0, 0⟩

/-- A concrete eigensolver output for a singular symmetric matrix: every eigenvalue
0 with zero imaginary part, identity eigenvector rows, success status. -/
def solverZeros : EigenSolverOut :=
  ⟨fun _ => 0, fun _ => 0, fun i => if i = 0 ∨ i = 3 then 1 else 0, 0⟩

/-- The 2x2 identity matrix. -/
def id2 : Mat ℚ := ⟨2, 2, fun i => if i = 0 ∨ i = 3 then 1 else 0⟩

/-- The 2x2 zero matrix: symmetric and singular. -/
def zero2 : Mat ℚ := ⟨2, 2, fun _ => 0⟩

/-- The behaviour claimed for a flat-call boundary wrapper: a successful wrapped
operation has its value returned unchanged, and a raised exception leads to a
diagnostic on standard error and process termination with a nonzero exit code. -/
def boundaryFaithful {α : Type} (w : Except CxxError α → BoundaryOutcome α) : Prop :=
  (∀ v, w (.ok v) = .ok v) ∧
  (∀ e, ∃ diag code, w (.error e) = .exited diag code ∧ code ≠ 0)

/-!
Heap model.  The value-returning matrix operations are const methods: they allocate
fresh buffers (`Matrix(nRows, nCols)` constructors, the `std::vector` scratch of
`diagonalize`) and write only to those buffers, never through the receiver's `data_`
pointer.  To state that (claim about frame effects), the address space is made
explicit: a heap is a flat memory plus a bump allocation pointer; freshly constructed
matrices live at the allocation pointer.  Element values are delegated to the
functional embedding above, which was translated from the same source lines.
-/

/-- The process memory: a flat store and a bump allocator front. -/
structure Heap where
  mem : Nat → ℚ
  next : Nat

/-- A matrix whose buffer lives in the heap at `base`, row-major. -/
structure MView where
  base : Nat
  nRows : Nat
  nCols : Nat

/-- A view is valid when its whole buffer sits inside the allocated prefix. -/
def MView.okIn (v : MView) (h : Heap) : Prop := v.base + v.nRows * v.nCols ≤ h.next

/-- Read the heap-backed matrix into the functional model. -/
def MView.toMat (v : MView) (h : Heap) : Mat ℚ :=
  { nRows := v.nRows, nCols := v.nCols, data := fun i => h.mem (v.base + i) }

/-- `helpme::vector<Real>(n, 0)` inside a fresh `Matrix`: bump-allocate `n`
zero-initialized cells. -/
def halloc (h : Heap) (n : Nat) : Heap × Nat :=
  ({ mem := fun a => if h.next ≤ a ∧ a < h.next + n then 0 else h.mem a,
     next := h.next + n }, h.next)

/-- Overwrite the block `[base, base + n)` with the first `n` cells of `src`. -/
def hwriteBlock (h : Heap) (base n : Nat) (src : Nat → ℚ) : Heap :=
  { h with mem := fun a => if base ≤ a ∧ a < base + n then src (a - base) else h.mem a }

/-- `Matrix::clone` on the heap: construct `Matrix(nRows_, nCols_)` (fresh, zeroed)
and `std::copy` the receiver's buffer into it. -/
def hclone (h : Heap) (v : MView) : Heap × MView :=
  let n := v.nRows * v.nCols
  let h1 := (halloc h n).1
  let b := (halloc h n).2
  (hwriteBlock h1 b n (fun i => h.mem (v.base + i)), ⟨b, v.nRows, v.nCols⟩)

/-- `Matrix::transposeInPlace` on the heap: permute the view's own block with
`transposeMemoryInPlace` and swap the dimensions.  This is the one mutating
operation; it writes only inside the view's block. -/
def htransposeInPlace (h : Heap) (v : MView) : Heap × MView :=
  (hwriteBlock h v.base (v.nRows * v.nCols)
      (transposeMemoryInPlace (fun i => h.mem (v.base + i)) (v.nRows * v.nCols) v.nCols),
    ⟨v.base, v.nCols, v.nRows⟩)

/-- `Matrix::transpose` on the heap: clone, then transpose the clone in place. -/
def htranspose (h : Heap) (v : MView) : Heap × MView :=
  htransposeInPlace (hclone h v).1 (hclone h v).2

/-- `Matrix::diagonalize` on the heap: allocate `evalsReal(R,1)`, `evalsImag(R,1)`,
`evecs(R,R)` and the `std::vector<Real>` scratch copy of the receiver's data, run the
eigensolver and the sort (values delegated to the functional `Mat.diagonalize`), and
write the results into the fresh blocks.  On failure the allocations still happened
but the receiver was never written. -/
def hdiagonalize (h : Heap) (v : MView) (solver : EigenSolverOut) (order : SortOrder) :
    (Except String (MView × MView × MView)) × Heap :=
  let R := v.nRows
  let h1 := (halloc h (R * 1)).1
  let bRe := (halloc h (R * 1)).2
  let h2 := (halloc h1 (R * 1)).1
  let bIm := (halloc h1 (R * 1)).2
  let h3 := (halloc h2 (R * R)).1
  let bV := (halloc h2 (R * R)).2
  let h4 := (halloc h3 (R * v.nCols)).1
  let bScratch := (halloc h3 (R * v.nCols)).2
  let h5 := hwriteBlock h4 bScratch (R * v.nCols) (fun i => h.mem (v.base + i))
  match (v.toMat h).diagonalize solver order with
  | .error e => (.error e, h5)
  | .ok (re, im, vects) =>
    let h6 := hwriteBlock h5 bRe (R * 1) re.data
    let h7 := hwriteBlock h6 bIm (R * 1) im.data
    let h8 := hwriteBlock h7 bV (R * R) vects.data
    (.ok (⟨bRe, R, 1⟩, ⟨bIm, R, 1⟩, ⟨bV, R, R⟩), h8)

/-- `Matrix::inverse` on the heap: assert square, construct the fresh
`matrixInverse(nRows_, nRows_)`; the 3x3 branch writes the closed form into it, the
generic branch goes through `applyOperation` (diagonalize into fresh blocks, then a
fresh product matrix).  Values are delegated to the functional `Mat.inverse`. -/
def hinverse (h : Heap) (v : MView) (solver : EigenSolverOut) :
    (Except String MView) × Heap :=
  if v.nRows ≠ v.nCols then
    (.error "Attepting to perform a square matrix operation on a non-square matrix!", h)
  else
    let h1 := (halloc h (v.nRows * v.nRows)).1
    let b := (halloc h (v.nRows * v.nRows)).2
    if v.nRows = 3 then
      (.ok ⟨b, 3, 3⟩, hwriteBlock h1 b 9 (inverse3 (v.toMat h)).data)
    else
      let d := (hdiagonalize h1 v solver .Ascending).1
      let h2 := (hdiagonalize h1 v solver .Ascending).2
      match (v.toMat h).applyOperation solver (fun x => 1 / x), d with
      | .ok res, .ok _ =>
        let h3 := (halloc h2 (v.nRows * v.nRows)).1
        let bRes := (halloc h2 (v.nRows * v.nRows)).2
        (.ok ⟨bRes, v.nRows, v.nRows⟩, hwriteBlock h3 bRes (v.nRows * v.nRows) res.data)
      | .error e, _ => (.error e, h2)
      | _, .error e => (.error e, h2)

/-- Invariant of the outer loop of `transposeMemoryInPlace` over step function `σ`
and buffer length `N`: visited indices are in range, nonzero, and closed under `σ`;
on visited indices the buffer already holds the final (permuted) values of the
original buffer `buf0`; unvisited indices still hold their original values. -/
def tmiInv {α : Type} (σ : Nat → Nat) (N : Nat) (buf0 buf : Nat → α) (vis : Nat → Bool) :
    Prop :=
  (∀ x, vis x = true → x < N ∧ x ≠ 0 ∧ vis (σ x) = true) ∧
  (∀ x, x < N → vis x = true → buf (σ x) = buf0 x) ∧
  (∀ x, x < N → vis x = false → buf x = buf0 x)

/-!  Shared helper lemmas. -/

theorem swapFn_fst {α : Type} (B : Nat → α) (i j : Nat) : swapFn B i j i = B j := by
  simp [swapFn]

theorem swapFn_snd {α : Type} (B : Nat → α) (i j : Nat) : swapFn B i j j = B i := by
  unfold swapFn
  by_cases h : j = i
  · subst h
    simp
  · simp [h]

theorem swapFn_other {α : Type} (B : Nat → α) (i j x : Nat) (hx1 : x ≠ i) (hx2 : x ≠ j) :
    swapFn B i j x = B x := by
  simp [swapFn, hx1, hx2]

theorem swapFn_self {α : Type} (B : Nat → α) (s : Nat) : swapFn B s s = B := by
  funext x
  unfold swapFn
  by_cases h : x = s
  · subst h
    simp
  · simp [h]

theorem markFold_spec : ∀ (l : List Nat) (V : Nat → Bool) (y : Nat),
    (l.foldl (fun v x => fun k => if k = x then true else v k) V) y = true ↔
      (y ∈ l ∨ V y = true) := by
  intro l
  induction l with
  | nil =>
      intro V y
      simp
  | cons a rest ih =>
      intro V y
      rw [List.foldl_cons, ih]
      by_cases h : y = a
      · subst h
        simp
      · simp [h]

theorem swap_chain {α : Type} (s : Nat) :
    ∀ (l : List Nat) (B : Nat → α), l.Nodup → s ∉ l →
      (∀ p ∈ (s :: l).zip (l ++ [s]),
        (l.foldl (fun b x => swapFn b x s) B) p.2 = B p.1) ∧
      (∀ x, x ≠ s → x ∉ l → (l.foldl (fun b x => swapFn b x s) B) x = B x) := by
  intro l
  induction l with
  | nil =>
      intro B _ _
      refine ⟨?_, fun x _ _ => rfl⟩
      intro p hp
      simp only [List.nil_append, List.zip_cons_cons, List.zip_nil_right,
        List.mem_singleton] at hp
      subst hp
      rfl
  | cons a rest ih =>
      intro B hnd hs
      have hnd' : rest.Nodup := (List.nodup_cons.mp hnd).2
      have ha : a ∉ rest := (List.nodup_cons.mp hnd).1
      have hs' : s ∉ rest := fun h => hs (List.mem_cons_of_mem _ h)
      have hsa : a ≠ s := fun h => hs (h ▸ List.mem_cons_self a rest)
      obtain ⟨ihChain, ihOff⟩ := ih (swapFn B a s) hnd' hs'
      constructor
      · intro p hp
        rw [show ((a :: rest) ++ [s]) = a :: (rest ++ [s]) from rfl,
          List.zip_cons_cons] at hp
        rw [List.mem_cons] at hp
        rcases hp with hp | hp
        · subst hp
          rw [List.foldl_cons]
          have h1 : (rest.foldl (fun b x => swapFn b x s) (swapFn B a s)) a =
              (swapFn B a s) a := ihOff a hsa ha
          rw [h1, swapFn_fst]
        · cases rest with
          | nil =>
              simp only [List.nil_append, List.zip_cons_cons, List.zip_nil_right,
                List.mem_singleton] at hp
              subst hp
              rw [List.foldl_cons, List.foldl_nil, swapFn_snd]
          | cons b rest2 =>
              rw [show ((b :: rest2) ++ [s]) = b :: (rest2 ++ [s]) from rfl,
                List.zip_cons_cons, List.mem_cons] at hp
              rcases hp with hp | hp
              · subst hp
                have hmem : ((s, b) : Nat × Nat) ∈ (s :: b :: rest2).zip ((b :: rest2) ++ [s]) := by
                  rw [show ((b :: rest2) ++ [s]) = b :: (rest2 ++ [s]) from rfl,
                    List.zip_cons_cons]
                  exact List.mem_cons_self _ _
                have := ihChain (s, b) hmem
                rw [List.foldl_cons]
                rw [this, swapFn_snd]
              · have hmem : p ∈ (s :: b :: rest2).zip ((b :: rest2) ++ [s]) := by
                  rw [show ((b :: rest2) ++ [s]) = b :: (rest2 ++ [s]) from rfl,
                    List.zip_cons_cons]
                  exact List.mem_cons_of_mem _ hp
                have hchain := ihChain p hmem
                have hp1 : p.1 ∈ b :: rest2 := (List.of_mem_zip hp).1
                have hp1a : p.1 ≠ a := fun h => ha (h ▸ hp1)
                have hp1s : p.1 ≠ s := fun h => hs' (h ▸ hp1)
                rw [List.foldl_cons, hchain, swapFn_other B a s p.1 hp1a hp1s]
      · intro x hxs hxl
        have hxa : x ≠ a := fun h => hxl (h ▸ List.mem_cons_self a rest)
        have hxr : x ∉ rest := fun h => hxl (List.mem_cons_of_mem _ h)
        rw [List.foldl_cons, ihOff x hxs hxr, swapFn_other B a s x hxa hxs]

theorem iter_lt {σ : Nat → Nat} {N : Nat} (hmap : ∀ a, a < N → σ a < N) :
    ∀ (j s : Nat), s < N → σ^[j] s < N := by
  intro j
  induction j with
  | zero => intro s hs; simpa using hs
  | succ j ih =>
      intro s hs
      rw [Function.iterate_succ_apply']
      exact hmap _ (ih s hs)

theorem iter_inj {σ : Nat → Nat} {N : Nat} (hmap : ∀ a, a < N → σ a < N)
    (hinj : ∀ a b, a < N → b < N → σ a = σ b → a = b) :
    ∀ (j x y : Nat), x < N → y < N → σ^[j] x = σ^[j] y → x = y := by
  intro j
  induction j with
  | zero => intro x y _ _ h; simpa using h
  | succ j ih =>
      intro x y hx hy h
      rw [Function.iterate_succ_apply', Function.iterate_succ_apply'] at h
      exact ih x y hx hy
        (hinj _ _ (iter_lt hmap j x hx) (iter_lt hmap j y hy) h)

theorem iter_zero_fix {σ : Nat → Nat} (h0 : σ 0 = 0) : ∀ j, σ^[j] 0 = 0 := by
  intro j
  induction j with
  | zero => rfl
  | succ j ih => rw [Function.iterate_succ_apply', ih, h0]

theorem exists_period {σ : Nat → Nat} {N : Nat} (hmap : ∀ a, a < N → σ a < N)
    (hinj : ∀ a b, a < N → b < N → σ a = σ b → a = b) (s : Nat) (hs : s < N) :
    ∃ k, 0 < k ∧ k ≤ N ∧ σ^[k] s = s := by
  have hN : 0 < N := Nat.pos_of_ne_zero fun h => by omega
  have hcard : Fintype.card (Fin N) < Fintype.card (Fin (N + 1)) := by simp
  obtain ⟨x, y, hxy, hfeq⟩ := Fintype.exists_ne_map_eq_of_card_lt
    (fun j : Fin (N + 1) => (⟨σ^[j.1] s, iter_lt hmap j.1 s hs⟩ : Fin N)) hcard
  have hval : σ^[x.1] s = σ^[y.1] s := congrArg Fin.val hfeq
  rcases Nat.lt_or_ge x.1 y.1 with hlt | hge
  · refine ⟨y.1 - x.1, by omega, by have := y.2; omega, ?_⟩
    have hy : σ^[x.1 + (y.1 - x.1)] s = σ^[y.1] s := by congr 1; omega
    rw [Function.iterate_add_apply] at hy
    exact iter_inj hmap hinj x.1 (σ^[y.1 - x.1] s) s
      (iter_lt hmap _ s hs) hs (by rw [hy, ← hval])
  · have hlt : y.1 < x.1 := by
      rcases Nat.lt_or_ge y.1 x.1 with h | h
      · exact h
      · exact absurd (Fin.ext (by omega)) hxy
    refine ⟨x.1 - y.1, by omega, by have := x.2; omega, ?_⟩
    have hx : σ^[y.1 + (x.1 - y.1)] s = σ^[x.1] s := by congr 1; omega
    rw [Function.iterate_add_apply] at hx
    exact iter_inj hmap hinj y.1 (σ^[x.1 - y.1] s) s
      (iter_lt hmap _ s hs) hs (by rw [hx, hval])

theorem tmiCycle_unroll {α : Type} (n mn1 s k : Nat) (hk : 0 < k)
    (hks : (tmiStep n mn1)^[k] s = s)
    (hmin : ∀ j, 0 < j → j < k → (tmiStep n mn1)^[j] s ≠ s) :
    ∀ d, 0 < d → d ≤ k → ∀ fuel, d ≤ fuel → ∀ (B : Nat → α) (V : Nat → Bool),
      tmiCycle n mn1 s fuel ((tmiStep n mn1)^[k - d] s) B V =
        (((List.range d).map fun i => (tmiStep n mn1)^[k - d + 1 + i] s).foldl
            (fun b x => swapFn b x s) B,
         ((List.range d).map fun i => (tmiStep n mn1)^[k - d + 1 + i] s).foldl
            (fun v x => fun y => if y = x then true else v y) V) := by
  intro d
  induction d with
  | zero => omega
  | succ d ih =>
      intro _ hdk fuel hfuel B V
      obtain ⟨f, rfl⟩ : ∃ f, fuel = f + 1 := ⟨fuel - 1, by omega⟩
      by_cases hd0 : d = 0
      · subst hd0
        have h1 := Function.iterate_succ_apply' (tmiStep n mn1) (k - (0 + 1)) s
        rw [Nat.succ_eq_add_one, show k - (0 + 1) + 1 = k by omega] at h1
        have ha2 : tmiStep n mn1 ((tmiStep n mn1)^[k - (0 + 1)] s) = s := by
          rw [← h1, hks]
        simp only [tmiCycle]
        rw [ha2, if_pos rfl]
        simp only [List.range_succ, List.range_zero, List.nil_append, List.map_cons,
          List.map_nil, List.foldl_cons, List.foldl_nil]
        rw [show k - (0 + 1) + 1 + 0 = k by omega, hks]
      · have h1 := Function.iterate_succ_apply' (tmiStep n mn1) (k - (d + 1)) s
        rw [Nat.succ_eq_add_one, show k - (d + 1) + 1 = k - d by omega] at h1
        have hstep : tmiStep n mn1 ((tmiStep n mn1)^[k - (d + 1)] s) =
            (tmiStep n mn1)^[k - d] s := h1.symm
        have ha2ne : (tmiStep n mn1)^[k - d] s ≠ s := hmin (k - d) (by omega) (by omega)
        simp only [tmiCycle]
        rw [hstep, if_neg ha2ne]
        rw [ih (by omega) (by omega) f (by omega)]
        have hseg : ((List.range (d + 1)).map fun i => (tmiStep n mn1)^[k - (d + 1) + 1 + i] s) =
            ((tmiStep n mn1)^[k - d] s) ::
              ((List.range d).map fun i => (tmiStep n mn1)^[k - d + 1 + i] s) := by
          rw [List.range_succ_eq_map, List.map_cons, List.map_map]
          refine congrArg₂ List.cons ?_ ?_
          · rw [show k - (d + 1) + 1 + 0 = k - d by omega]
          · apply List.map_congr_left
            intro i _
            simp only [Function.comp_apply, Nat.succ_eq_add_one]
            rw [show k - (d + 1) + 1 + (i + 1) = k - d + 1 + i by omega]
        rw [hseg, List.foldl_cons, List.foldl_cons]

theorem tmiCycle_full {α : Type} (n mn1 s k : Nat) (hk : 0 < k)
    (hks : (tmiStep n mn1)^[k] s = s)
    (hmin : ∀ j, 0 < j → j < k → (tmiStep n mn1)^[j] s ≠ s)
    (fuel : Nat) (hfuel : k ≤ fuel) (B : Nat → α) (V : Nat → Bool) :
    tmiCycle n mn1 s fuel s B V =
      (((List.range k).map fun i => (tmiStep n mn1)^[i + 1] s).foldl
          (fun b x => swapFn b x s) B,
       ((List.range k).map fun i => (tmiStep n mn1)^[i + 1] s).foldl
          (fun v x => fun y => if y = x then true else v y) V) := by
  have h := tmiCycle_unroll n mn1 s k hk hks hmin k hk le_rfl fuel hfuel B V
  rw [Nat.sub_self] at h
  rw [Function.iterate_zero_apply] at h
  have hl : ((List.range k).map fun i => (tmiStep n mn1)^[0 + 1 + i] s) =
      ((List.range k).map fun i => (tmiStep n mn1)^[i + 1] s) := by
    apply List.map_congr_left
    intro i _
    rw [show 0 + 1 + i = i + 1 by omega]
  rw [hl] at h
  exact h

theorem tmiCycle_vis_mono {α : Type} (n mn1 s : Nat) :
    ∀ (fuel a : Nat) (buf : Nat → α) (vis : Nat → Bool) (x : Nat), vis x = true →
      (tmiCycle n mn1 s fuel a buf vis).2 x = true := by
  intro fuel
  induction fuel with
  | zero => intro a buf vis x hx; exact hx
  | succ f ih =>
      intro a buf vis x hx
      simp only [tmiCycle]
      by_cases h : tmiStep n mn1 a = s
      · rw [if_pos h]
        by_cases hxa : x = tmiStep n mn1 a
        · simp [hxa]
        · simpa [hxa] using hx
      · rw [if_neg h]
        apply ih
        by_cases hxa : x = tmiStep n mn1 a
        · simp [hxa]
        · simpa [hxa] using hx

theorem tmiCycle_processes {α : Type} (n mn1 N : Nat)
    (hmap : ∀ a, a < N → tmiStep n mn1 a < N)
    (hinj : ∀ a b, a < N → b < N → tmiStep n mn1 a = tmiStep n mn1 b → a = b)
    (h0 : tmiStep n mn1 0 = 0)
    (fuel : Nat) (hfuel : N ≤ fuel)
    (buf0 buf : Nat → α) (vis : Nat → Bool)
    (hInv : tmiInv (tmiStep n mn1) N buf0 buf vis)
    (c : Nat) (hcN : c < N) (hc0 : c ≠ 0) (hvc : vis c = false) :
    tmiInv (tmiStep n mn1) N buf0 (tmiCycle n mn1 c fuel c buf vis).1
      (tmiCycle n mn1 c fuel c buf vis).2 ∧
    (tmiCycle n mn1 c fuel c buf vis).2 c = true := by
  obtain ⟨k0, hk00, hk0N, hk0s⟩ := exists_period hmap hinj c hcN
  have hPex : ∃ k, 0 < k ∧ (tmiStep n mn1)^[k] c = c := ⟨k0, hk00, hk0s⟩
  have hkspec := Nat.find_spec hPex
  have hkle : Nat.find hPex ≤ k0 := Nat.find_min' hPex ⟨hk00, hk0s⟩
  set k := Nat.find hPex with hkdef
  have hk : 0 < k := hkspec.1
  have hks : (tmiStep n mn1)^[k] c = c := hkspec.2
  have hmin : ∀ j, 0 < j → j < k → (tmiStep n mn1)^[j] c ≠ c :=
    fun j hj0 hjk heq => (Nat.find_min hPex hjk) ⟨hj0, heq⟩
  have hkN : k ≤ N := le_trans hkle hk0N
  rw [tmiCycle_full n mn1 c k hk hks hmin fuel (le_trans hkN hfuel) buf vis]
  dsimp only
  set cl := (List.range k).map fun i => (tmiStep n mn1)^[i + 1] c with hcl
  have h0N : 0 < N := Nat.lt_of_le_of_lt (Nat.zero_le c) hcN
  have horbN : ∀ j, (tmiStep n mn1)^[j] c < N := fun j => iter_lt hmap j c hcN
  have horb0 : ∀ j, (tmiStep n mn1)^[j] c ≠ 0 := by
    intro j h
    exact hc0 (iter_inj hmap hinj j c 0 hcN h0N (by rw [h, iter_zero_fix h0 j]))
  have cancel : ∀ i j, i ≤ j → (tmiStep n mn1)^[i] c = (tmiStep n mn1)^[j] c →
      (tmiStep n mn1)^[j - i] c = c := by
    intro i j hij heq
    have hadd : (tmiStep n mn1)^[j] c = (tmiStep n mn1)^[i] ((tmiStep n mn1)^[j - i] c) := by
      rw [← Function.iterate_add_apply]
      congr 1
      omega
    exact iter_inj hmap hinj i _ c (horbN _) hcN (by rw [← hadd, ← heq])
  have hdistinct : ∀ i j, i < k → j < k →
      (tmiStep n mn1)^[i] c = (tmiStep n mn1)^[j] c → i = j := by
    intro i j hik hjk heq
    rcases Nat.le_total i j with hij | hij
    · by_contra hne
      exact hmin (j - i) (by omega) (by omega) (cancel i j hij heq)
    · by_contra hne
      exact hmin (i - j) (by omega) (by omega) (cancel j i hij heq.symm)
  have hmemcl : ∀ x, x ∈ cl ↔ ∃ j, j < k ∧ x = (tmiStep n mn1)^[j] c := by
    intro x
    rw [hcl]
    simp only [List.mem_map, List.mem_range]
    constructor
    · rintro ⟨i, hik, rfl⟩
      by_cases hik1 : i + 1 = k
      · exact ⟨0, hk, by rw [hik1, hks, Function.iterate_zero_apply]⟩
      · exact ⟨i + 1, by omega, rfl⟩
    · rintro ⟨j, hjk, rfl⟩
      by_cases hj0 : j = 0
      · refine ⟨k - 1, by omega, ?_⟩
        rw [show k - 1 + 1 = k by omega, hks, hj0, Function.iterate_zero_apply]
      · exact ⟨j - 1, by omega, by rw [show j - 1 + 1 = j by omega]⟩
  have horbUnvis : ∀ j, vis ((tmiStep n mn1)^[j] c) = false := by
    intro j
    cases hvb : vis ((tmiStep n mn1)^[j] c) with
    | false => rfl
    | true =>
        exfalso
        have hclose : ∀ m x, vis x = true → vis ((tmiStep n mn1)^[m] x) = true := by
          intro m
          induction m with
          | zero => intro x hx; simpa using hx
          | succ m ih =>
              intro x hx
              rw [Function.iterate_succ_apply']
              exact (hInv.1 _ (ih x hx)).2.2
        have hmul : ∀ q, (tmiStep n mn1)^[k * q] c = c := by
          intro q
          induction q with
          | zero => rw [Nat.mul_zero]; rfl
          | succ q ih =>
              rw [Nat.mul_succ, Function.iterate_add_apply, hks, ih]
        have hstep1 := hclose (k * (j + 1) - j) _ hvb
        rw [← Function.iterate_add_apply] at hstep1
        have hjle : j + 1 ≤ k * (j + 1) := Nat.le_mul_of_pos_left (j + 1) hk
        rw [show k * (j + 1) - j + j = k * (j + 1) by omega] at hstep1
        rw [hmul (j + 1)] at hstep1
        rw [hstep1] at hvc
        exact Bool.noConfusion hvc
  obtain ⟨k2, hk'⟩ : ∃ k2, k = k2 + 1 := ⟨k - 1, by omega⟩
  set T := (List.range k2).map fun i => (tmiStep n mn1)^[i + 1] c with hT
  have hclT : cl = T ++ [c] := by
    rw [hcl, hk', List.range_succ, List.map_append, List.map_cons, List.map_nil]
    have hlast : (tmiStep n mn1)^[k2 + 1] c = c := by rw [← hk']; exact hks
    rw [hlast]
  have hTnodup : T.Nodup := by
    rw [hT]
    refine List.Nodup.map_on ?_ (List.nodup_range k2)
    intro i hi j hj heq
    rw [List.mem_range] at hi hj
    have := hdistinct (i + 1) (j + 1) (by omega) (by omega) heq
    omega
  have hcT : c ∉ T := by
    rw [hT]
    simp only [List.mem_map, List.mem_range]
    rintro ⟨i, hik2, hieq⟩
    exact hmin (i + 1) (by omega) (by omega) hieq
  obtain ⟨hchain, hoff⟩ := swap_chain c T buf hTnodup hcT
  have hfold : cl.foldl (fun b x => swapFn b x c) buf =
      T.foldl (fun b x => swapFn b x c) buf := by
    rw [hclT, List.foldl_append, List.foldl_cons, List.foldl_nil, swapFn_self]
  have hcT2 : (List.range k).map (fun j => (tmiStep n mn1)^[j] c) = c :: T := by
    rw [hk', List.range_succ_eq_map, List.map_cons, List.map_map, hT]
    refine congrArg₂ List.cons (by simp) ?_
    apply List.map_congr_left
    intro i _
    simp [Function.comp_apply, Nat.succ_eq_add_one]
  have hzip : (c :: T).zip (T ++ [c]) =
      (List.range k).map fun j => ((tmiStep n mn1)^[j] c, (tmiStep n mn1)^[j + 1] c) := by
    rw [← hcT2, ← hclT, hcl, List.zip_map']
  have hpairmem : ∀ j, j < k →
      ((tmiStep n mn1)^[j] c, (tmiStep n mn1)^[j + 1] c) ∈ (c :: T).zip (T ++ [c]) := by
    intro j hj
    rw [hzip]
    exact List.mem_map_of_mem _ (List.mem_range.mpr hj)
  have hbufSigma : ∀ j, j < k →
      (T.foldl (fun b x => swapFn b x c) buf) ((tmiStep n mn1)^[j + 1] c) =
        buf ((tmiStep n mn1)^[j] c) := fun j hj => hchain _ (hpairmem j hj)
  have hbufOff : ∀ x, (∀ j, j < k → x ≠ (tmiStep n mn1)^[j] c) →
      (T.foldl (fun b x => swapFn b x c) buf) x = buf x := by
    intro x hx
    refine hoff x ?_ ?_
    · simpa using hx 0 hk
    · rw [hT]
      simp only [List.mem_map, List.mem_range]
      rintro ⟨i, hik2, hieq⟩
      exact hx (i + 1) (by omega) hieq.symm
  have hvis' : ∀ x, (cl.foldl (fun v x => fun y => if y = x then true else v y) vis) x = true ↔
      (x ∈ cl ∨ vis x = true) := fun x => markFold_spec cl vis x
  constructor
  · refine ⟨?_, ?_, ?_⟩
    · intro x hx
      have hx' := (hvis' x).mp hx
      rcases hx' with hxcl | hxold
      · obtain ⟨j, hjk, rfl⟩ := (hmemcl x).mp hxcl
        refine ⟨horbN j, horb0 j, ?_⟩
        have hsucc : tmiStep n mn1 ((tmiStep n mn1)^[j] c) = (tmiStep n mn1)^[j + 1] c :=
          (Function.iterate_succ_apply' _ _ _).symm
        rw [hsucc, hvis']
        left
        rw [hmemcl]
        by_cases hjk1 : j + 1 = k
        · exact ⟨0, hk, by rw [hjk1, hks, Function.iterate_zero_apply]⟩
        · exact ⟨j + 1, by omega, rfl⟩
      · have hold := hInv.1 x hxold
        exact ⟨hold.1, hold.2.1, (hvis' _).mpr (Or.inr hold.2.2)⟩
    · intro x hxN hx
      have hx' := (hvis' x).mp hx
      rw [hfold]
      rcases hx' with hxcl | hxold
      · obtain ⟨j, hjk, rfl⟩ := (hmemcl x).mp hxcl
        have hsucc : tmiStep n mn1 ((tmiStep n mn1)^[j] c) = (tmiStep n mn1)^[j + 1] c :=
          (Function.iterate_succ_apply' _ _ _).symm
        rw [hsucc, hbufSigma j hjk]
        exact hInv.2.2 _ (horbN j) (horbUnvis j)
      · have hold := hInv.1 x hxold
        have hsNot : ∀ j, j < k → tmiStep n mn1 x ≠ (tmiStep n mn1)^[j] c := by
          intro j hjk heq
          have hvt : vis ((tmiStep n mn1)^[j] c) = true := by rw [← heq]; exact hold.2.2
          rw [horbUnvis j] at hvt
          exact Bool.noConfusion hvt
        rw [hbufOff _ hsNot]
        exact hInv.2.1 x hxN hxold
    · intro x hxN hxf
      have hnot : ¬(x ∈ cl ∨ vis x = true) := by
        intro hcon
        have hcontr := (hvis' x).mpr hcon
        rw [hxf] at hcontr
        exact Bool.noConfusion hcontr
      push_neg at hnot
      have hxcl : ∀ j, j < k → x ≠ (tmiStep n mn1)^[j] c := by
        intro j hjk heq
        exact hnot.1 ((hmemcl x).mpr ⟨j, hjk, heq⟩)
      rw [hfold, hbufOff x hxcl]
      have hvx : vis x = false := by
        cases hvb : vis x
        · rfl
        · exact absurd hvb hnot.2
      exact hInv.2.2 x hxN hvx
  · exact (hvis' c).mpr (Or.inl ((hmemcl c).mpr ⟨0, hk, by rw [Function.iterate_zero_apply]⟩))

theorem tmiOuter_vis_mono {α : Type} (n mn1 fuel : Nat) :
    ∀ (cs : List Nat) (buf : Nat → α) (vis : Nat → Bool) (x : Nat), vis x = true →
      (tmiOuter n mn1 fuel cs buf vis).2 x = true := by
  intro cs
  induction cs with
  | nil => intro buf vis x hx; exact hx
  | cons c rest ih =>
      intro buf vis x hx
      simp only [tmiOuter]
      by_cases hvc : vis c
      · rw [if_pos hvc]
        exact ih buf vis x hx
      · rw [if_neg hvc]
        exact ih _ _ x (tmiCycle_vis_mono n mn1 c fuel c buf vis x hx)

theorem tmiOuter_invariant {α : Type} (n mn1 N : Nat)
    (hmap : ∀ a, a < N → tmiStep n mn1 a < N)
    (hinj : ∀ a b, a < N → b < N → tmiStep n mn1 a = tmiStep n mn1 b → a = b)
    (h0 : tmiStep n mn1 0 = 0)
    (fuel : Nat) (hfuel : N ≤ fuel) (buf0 : Nat → α) :
    ∀ (cs : List Nat) (buf : Nat → α) (vis : Nat → Bool),
      (∀ c ∈ cs, c < N ∧ c ≠ 0) →
      tmiInv (tmiStep n mn1) N buf0 buf vis →
      tmiInv (tmiStep n mn1) N buf0 (tmiOuter n mn1 fuel cs buf vis).1
          (tmiOuter n mn1 fuel cs buf vis).2 ∧
      ∀ c ∈ cs, (tmiOuter n mn1 fuel cs buf vis).2 c = true := by
  intro cs
  induction cs with
  | nil =>
      intro buf vis _ hInv
      exact ⟨hInv, by simp⟩
  | cons c rest ih =>
      intro buf vis hcs hInv
      have hc := hcs c (List.mem_cons_self c rest)
      simp only [tmiOuter]
      by_cases hvc : vis c
      · rw [if_pos hvc]
        obtain ⟨hInvR, hvisR⟩ := ih buf vis (fun d hd => hcs d (List.mem_cons_of_mem _ hd)) hInv
        refine ⟨hInvR, ?_⟩
        intro d hd
        rcases List.mem_cons.mp hd with rfl | hd
        · exact tmiOuter_vis_mono n mn1 fuel rest buf vis d hvc
        · exact hvisR d hd
      · rw [if_neg hvc]
        have hvcf : vis c = false := by
          cases hvb : vis c
          · rfl
          · exact absurd hvb hvc
        obtain ⟨hInvC, hvisC⟩ := tmiCycle_processes n mn1 N hmap hinj h0 fuel hfuel
          buf0 buf vis hInv c hc.1 hc.2 hvcf
        obtain ⟨hInvR, hvisR⟩ := ih _ _ (fun d hd => hcs d (List.mem_cons_of_mem _ hd)) hInvC
        refine ⟨hInvR, ?_⟩
        intro d hd
        rcases List.mem_cons.mp hd with rfl | hd
        · exact tmiOuter_vis_mono n mn1 fuel rest _ _ d hvisC
        · exact hvisR d hd

theorem tmiOuter_result {α : Type} (n mn1 N fuel : Nat) (hfuel : N ≤ fuel)
    (hmap : ∀ a, a < N → tmiStep n mn1 a < N)
    (hinj : ∀ a b, a < N → b < N → tmiStep n mn1 a = tmiStep n mn1 b → a = b)
    (h0 : tmiStep n mn1 0 = 0) (buf0 : Nat → α) :
    ∀ i, i < N →
      (tmiOuter n mn1 fuel (List.range' 1 (N - 1)) buf0 (fun _ => false)).1
        (tmiStep n mn1 i) = buf0 i := by
  have hcs : ∀ c ∈ List.range' 1 (N - 1), c < N ∧ c ≠ 0 := by
    intro c hc
    rw [List.mem_range'] at hc
    obtain ⟨i, hiN, rfl⟩ := hc
    constructor <;> omega
  have hInv0 : tmiInv (tmiStep n mn1) N buf0 buf0 (fun _ => false) :=
    ⟨fun _ hx => Bool.noConfusion hx, fun _ _ hx => Bool.noConfusion hx, fun _ _ _ => rfl⟩
  obtain ⟨hInv, hvis⟩ := tmiOuter_invariant n mn1 N hmap hinj h0 fuel hfuel buf0
    (List.range' 1 (N - 1)) buf0 (fun _ => false) hcs hInv0
  intro i hiN
  by_cases hi0 : i = 0
  · subst hi0
    rw [h0]
    have hv0 : (tmiOuter n mn1 fuel (List.range' 1 (N - 1)) buf0 (fun _ => false)).2 0 =
        false := by
      cases hvb : (tmiOuter n mn1 fuel (List.range' 1 (N - 1)) buf0 (fun _ => false)).2 0
      · rfl
      · exact absurd rfl (hInv.1 0 hvb).2.1
    exact hInv.2.2 0 hiN hv0
  · have hmem : i ∈ List.range' 1 (N - 1) := by
      rw [List.mem_range']
      exact ⟨i - 1, by omega, by omega⟩
    exact hInv.2.1 i hiN (hvis i hmem)

theorem tmiStep_zero (n mn1 : Nat) : tmiStep n mn1 0 = 0 := by
  unfold tmiStep
  by_cases h : (0 : Nat) = mn1
  · rw [if_pos h]
    omega
  · rw [if_neg h]
    simp

theorem tmiStep_maps (R C : Nat) : ∀ a, a < R * C → tmiStep R (R * C - 1) a < R * C := by
  intro a ha
  unfold tmiStep
  by_cases h : a = R * C - 1
  · rw [if_pos h]
    omega
  · rw [if_neg h]
    have hm : 0 < R * C - 1 := by omega
    have := Nat.mod_lt (R * a) hm
    omega

theorem coprime_R_mn1 (R C : Nat) (hR : 0 < R) (hC : 0 < C) :
    Nat.gcd R (R * C - 1) = 1 := by
  obtain ⟨R2, rfl⟩ : ∃ R2, R = R2 + 1 := ⟨R - 1, by omega⟩
  obtain ⟨C2, rfl⟩ : ∃ C2, C = C2 + 1 := ⟨C - 1, by omega⟩
  have hmn : (R2 + 1) * (C2 + 1) - 1 = C2 * (R2 + 1) + R2 := by
    have h1 : (R2 + 1) * (C2 + 1) = C2 * (R2 + 1) + R2 + 1 := by ring
    omega
  rw [hmn, Nat.gcd_rec]
  have hmod : (C2 * (R2 + 1) + R2) % (R2 + 1) = R2 := by
    rw [Nat.mul_comm C2 (R2 + 1), Nat.mul_add_mod]
    exact Nat.mod_eq_of_lt (by omega)
  rw [hmod]
  have hco : Nat.Coprime (R2 + 1) R2 := by
    simp [Nat.Coprime, Nat.succ_sub_one, Nat.gcd_comm]
  rw [Nat.gcd_comm]
  exact hco

theorem tmiStep_inj (R C : Nat) (hR : 0 < R) (hC : 0 < C) :
    ∀ a b, a < R * C → b < R * C →
      tmiStep R (R * C - 1) a = tmiStep R (R * C - 1) b → a = b := by
  intro a b ha hb heq
  unfold tmiStep at heq
  by_cases hA : a = R * C - 1 <;> by_cases hB : b = R * C - 1
  · omega
  · rw [if_pos hA, if_neg hB] at heq
    have hm : 0 < R * C - 1 := by omega
    have := Nat.mod_lt (R * b) hm
    omega
  · rw [if_neg hA, if_pos hB] at heq
    have hm : 0 < R * C - 1 := by omega
    have := Nat.mod_lt (R * a) hm
    omega
  · rw [if_neg hA, if_neg hB] at heq
    have hco : Nat.gcd R (R * C - 1) = 1 := coprime_R_mn1 R C hR hC
    have hmodeq : R * a ≡ R * b [MOD R * C - 1] := heq
    have hcan := Nat.ModEq.cancel_left_of_coprime (by rw [Nat.gcd_comm]; exact hco) hmodeq
    have h2 : a % (R * C - 1) = b % (R * C - 1) := hcan
    have ha2 : a % (R * C - 1) = a := Nat.mod_eq_of_lt (by omega)
    have hb2 : b % (R * C - 1) = b := Nat.mod_eq_of_lt (by omega)
    omega

theorem tmiStep_target (R C r c : Nat) (hr : r < R) (hc : c < C) :
    tmiStep R (R * C - 1) (r * C + c) = c * R + r := by
  have hR : 0 < R := by omega
  have hC : 0 < C := by omega
  have hm : R * C - 1 + 1 = R * C := by
    have := Nat.mul_pos hR hC
    omega
  unfold tmiStep
  by_cases hlast : r * C + c = R * C - 1
  · rw [if_pos hlast]
    have hr1 : r = R - 1 := by
      by_contra hne
      have h3 : (r + 1) * C ≤ (R - 1) * C := Nat.mul_le_mul_right C (by omega)
      have h4 : (r + 1) * C = r * C + C := by ring
      have h5 : (R - 1 + 1) * C = (R - 1) * C + C := by ring
      rw [show R - 1 + 1 = R by omega] at h5
      omega
    have hc1 : c = C - 1 := by
      by_contra hne
      have h3 : (r + 1) * C ≤ R * C := Nat.mul_le_mul_right C (by omega)
      have h4 : (r + 1) * C = r * C + C := by ring
      omega
    rw [hr1, hc1] at hlast ⊢
    have h7 : (C - 1 + 1) * R = (C - 1) * R + R := by ring
    rw [show C - 1 + 1 = C by omega] at h7
    have h9 : C * R = R * C := Nat.mul_comm C R
    omega
  · rw [if_neg hlast]
    have hkey : R * (r * C + c) = r * (R * C - 1) + (c * R + r) := by
      have h1 : R * (r * C + c) = r * (R * C) + c * R := by ring
      have h2 : r * (R * C - 1 + 1) = r * (R * C - 1) + r := by ring
      rw [hm] at h2
      omega
    have h4 : (C - 1 + 1) * R = (C - 1) * R + R := by ring
    rw [show C - 1 + 1 = C by omega] at h4
    have h6 : C * R = R * C := Nat.mul_comm C R
    have hle : c * R + r ≤ R * C - 1 := by
      have h3 : c * R ≤ (C - 1) * R := Nat.mul_le_mul_right R (by omega)
      omega
    have hne2 : c * R + r ≠ R * C - 1 := by
      intro hEq
      have hcc : c = C - 1 := by
        by_contra hne
        have h3 : (c + 1) * R ≤ (C - 1) * R := Nat.mul_le_mul_right R (by omega)
        have h5 : (c + 1) * R = c * R + R := by ring
        omega
      rw [hcc] at hEq
      have hrr : r = R - 1 := by omega
      apply hlast
      rw [hcc, hrr]
      have h9 : (R - 1 + 1) * C = (R - 1) * C + C := by ring
      rw [show R - 1 + 1 = R by omega] at h9
      omega
    rw [hkey, Nat.add_comm, Nat.add_mul_mod_self_right]
    exact Nat.mod_eq_of_lt (by omega)

theorem transposeMemoryInPlace_spec {α : Type} (buf : Nat → α) (R C : Nat) :
    ∀ r c, r < R → c < C →
      transposeMemoryInPlace buf (R * C) C (c * R + r) = buf (r * C + c) := by
  intro r c hr hc
  have hR : 0 < R := by omega
  have hC : 0 < C := by omega
  have hn : R * C / C = R := Nat.mul_div_left R hC
  unfold transposeMemoryInPlace
  rw [hn]
  have htar := tmiStep_target R C r c hr hc
  rw [← htar]
  exact tmiOuter_result R (R * C - 1) (R * C) (R * C) le_rfl
    (tmiStep_maps R C) (tmiStep_inj R C hR hC) (tmiStep_zero R (R * C - 1)) buf
    (r * C + c) (by
      have h1 : (r + 1) * C = r * C + C := by ring
      have h2 : (r + 1) * C ≤ R * C := Nat.mul_le_mul_right C (by omega)
      omega)

theorem transposeInPlace_get {α : Type} (M : Mat α) (r c : Nat)
    (hr : r < M.nRows) (hc : c < M.nCols) :
    (M.transposeInPlace).get c r = M.get r c := by
  show transposeMemoryInPlace M.data (M.nRows * M.nCols) M.nCols (c * M.nRows + r) =
    M.data (r * M.nCols + c)
  exact transposeMemoryInPlace_spec M.data M.nRows M.nCols r c hr hc

theorem clone_get {α : Type} [Zero α] (M : Mat α) (r c : Nat)
    (hr : r < M.nRows) (hc : c < M.nCols) : M.clone.get r c = M.get r c := by
  show (if r * M.nCols + c < M.nRows * M.nCols then M.data (r * M.nCols + c) else 0) =
    M.data (r * M.nCols + c)
  rw [if_pos]
  calc r * M.nCols + c < r * M.nCols + M.nCols := by omega
    _ = (r + 1) * M.nCols := by ring
    _ ≤ M.nRows * M.nCols := Nat.mul_le_mul_right M.nCols hr

theorem mkMatrix_data (R C i : Nat) : (mkMatrix R C).data i = 0 := by
  simp only [mkMatrix]
  rcases lt_or_le i (R * C) with h | h
  · rw [List.getD_eq_getElem _ _ (by simpa using h)]
    simp
  · rw [List.getD_eq_default _ _ (by simpa using h)]

theorem foldl_add_eq_sum (f : Nat → ℚ) (init : ℚ) (n : Nat) :
    (List.range n).foldl (fun acc k => acc + f k) init = init + ∑ k ∈ Finset.range n, f k := by
  induction n generalizing init with
  | zero => simp
  | succ n ih =>
      rw [List.range_succ, List.foldl_append, ih, Finset.sum_range_succ]
      simp [add_assoc]

theorem flat_index_lt {r c R C : Nat} (hr : r < R) (hc : c < C) : r * C + c < R * C := by
  calc r * C + c < r * C + C := by omega
    _ = (r + 1) * C := by ring
    _ ≤ R * C := Nat.mul_le_mul_right C hr

theorem flat_div {r c C : Nat} (hc : c < C) : (r * C + c) / C = r := by
  rw [Nat.mul_comm r C, Nat.mul_add_div (by omega), Nat.div_eq_of_lt hc, Nat.add_zero]

theorem flat_mod {r c C : Nat} (hc : c < C) : (r * C + c) % C = c := by
  rw [Nat.mul_comm r C, Nat.mul_add_mod, Nat.mod_eq_of_lt hc]

theorem flat_forall_iff (R C : Nat) (P : Nat → Prop) :
    (∀ i, i < R * C → P i) ↔ ∀ r, r < R → ∀ c, c < C → P (r * C + c) := by
  constructor
  · intro h r hr c hc
    exact h _ (flat_index_lt hr hc)
  · intro h i hi
    rcases Nat.eq_zero_or_pos C with h0 | hC
    · subst h0
      simp at hi
    have hdm : i / C * C + i % C = i := by
      have h1 := Nat.div_add_mod i C
      have h2 : C * (i / C) = i / C * C := Nat.mul_comm _ _
      omega
    have hr : i / C < R := Nat.div_lt_of_lt_mul (by rw [Nat.mul_comm] at hi; exact hi)
    have := h (i / C) hr (i % C) (Nat.mod_lt _ hC)
    rwa [hdm] at this

/-- C10: every matrix built by the allocating `(nRows, nCols)` constructor is
all-zero on its `nRows * nCols` cells, and consequently `multiply`, which
accumulates with `+=` into such a fresh matrix, returns exactly the standard
matrix product: each valid cell of the product equals the sum over the link
index of the corresponding row/column products. -/
theorem mkMatrix_zero_and_multiply_exact :
    (∀ R C r c : Nat, r < R → c < C → (mkMatrix R C).get r c = 0) ∧
    (∀ A B : Mat ℚ, A.nCols = B.nRows →
      A.multiply B = .ok (mulMat A B) ∧
      (mulMat A B).nRows = A.nRows ∧ (mulMat A B).nCols = B.nCols ∧
      ∀ r c, r < A.nRows → c < B.nCols →
        (mulMat A B).get r c = ∑ link ∈ Finset.range A.nCols, A.get r link * B.get link c) := by
  constructor
  · intro R C r c _ _
    simp [Mat.get, mkMatrix_data]
  · intro A B hdim
    refine ⟨by simp [Mat.multiply, hdim], rfl, rfl, ?_⟩
    intro r c hr hc
    have haddr : r * B.nCols + c < A.nRows * B.nCols := flat_index_lt hr hc
    have hcols : (mulMat A B).nCols = B.nCols := rfl
    unfold Mat.get
    rw [hcols]
    simp only [mulMat, haddr, if_pos]
    rw [mkMatrix_data, flat_div hc, flat_mod hc]
    unfold mulEntry
    rw [foldl_add_eq_sum, zero_add]

/-- Witness for C10 at concrete inputs: a fresh 2x3 matrix reads zero, and the
product of [[1,2],[3,4]] with [[5,6],[7,8]] has 22 = 1*6 + 2*8 at cell (0,1). -/
theorem mkMatrix_zero_and_multiply_exact_witness :
    (mkMatrix 2 3).get 1 2 = 0 ∧
    (mulMat ⟨2, 2, fun i => [(1:ℚ), 2, 3, 4].getD i 0⟩
            ⟨2, 2, fun i => [(5:ℚ), 6, 7, 8].getD i 0⟩).get 0 1 = 22 := by
  constructor
  · exact mkMatrix_zero_and_multiply_exact.1 2 3 1 2 (by decide) (by decide)
  · have h := (mkMatrix_zero_and_multiply_exact.2
      ⟨2, 2, fun i => [(1:ℚ), 2, 3, 4].getD i 0⟩
      ⟨2, 2, fun i => [(5:ℚ), 6, 7, 8].getD i 0⟩ rfl).2.2.2 0 1 (by decide) (by decide)
    rw [h]
    norm_num [Mat.get, Finset.sum_range_succ]

/-- C5: each flat-call boundary entry point (`create`, `setup`,
`set_lattice_vectors`, `compute_EF_rec`, in both precisions) returns the wrapped
operation's value unchanged on success, and on any exception writes a diagnostic
to standard error and terminates the process with a nonzero exit code; the wrapper
itself is total, so no exception escapes the boundary. -/
theorem boundary_wrappers_faithful :
    (∀ α : Type, boundaryFaithful (helpme_createD (α := α))) ∧
    (∀ α : Type, boundaryFaithful (helpme_createF (α := α))) ∧
    boundaryFaithful helpme_setupD ∧
    boundaryFaithful helpme_setupF ∧
    boundaryFaithful helpme_set_lattice_vectorsD ∧
    boundaryFaithful helpme_set_lattice_vectorsF ∧
    boundaryFaithful helpme_compute_EF_recD ∧
    boundaryFaithful helpme_compute_EF_recF := by
  have base : ∀ (α : Type) (msg : String), boundaryFaithful (flatWrap (α := α) msg) := by
    intro α msg
    constructor
    · intro v
      rfl
    · intro e
      cases e with
      | runtimeError m => exact ⟨m, 1, rfl, by omega⟩
      | unknown => exact ⟨msg, 1, rfl, by omega⟩
  exact ⟨fun α => base α _, fun α => base α _, base _ _, base _ _,
    base _ _, base _ _, base _ _, base _ _⟩

/-- C6: `almostEquals` on same-shaped matrices returns true exactly when every
corresponding pair of elements differs by strictly less than the tolerance in
absolute value (for the complex overload, real and imaginary parts are compared
separately against the real part of the tolerance), and on differently shaped
matrices it throws instead of returning. -/
theorem almostEquals_characterization :
    (∀ (A B : Mat ℚ) (tol : ℚ), A.nRows = B.nRows → A.nCols = B.nCols →
      (A.almostEquals B tol = .ok true ↔
        ∀ r, r < A.nRows → ∀ c, c < A.nCols → |A.get r c - B.get r c| < tol)) ∧
    (∀ (A B : Mat ℚ) (tol : ℚ), A.nRows ≠ B.nRows ∨ A.nCols ≠ B.nCols →
      A.almostEquals B tol = .error "Attepting to compare matrices of different sizes!") ∧
    (∀ (A B : Mat (ℚ × ℚ)) (tol : ℚ × ℚ), A.nRows = B.nRows → A.nCols = B.nCols →
      (A.almostEqualsC B tol = .ok true ↔
        ∀ r, r < A.nRows → ∀ c, c < A.nCols →
          |(A.get r c).1 - (B.get r c).1| < tol.1 ∧
          |(A.get r c).2 - (B.get r c).2| < tol.1)) ∧
    (∀ (A B : Mat (ℚ × ℚ)) (tol : ℚ × ℚ), A.nRows ≠ B.nRows ∨ A.nCols ≠ B.nCols →
      A.almostEqualsC B tol = .error "Attepting to compare matrices of different sizes!") := by
  refine ⟨?_, ?_, ?_, ?_⟩
  · intro A B tol hR hC
    unfold Mat.almostEquals
    rw [if_neg (by omega)]
    simp only [Except.ok.injEq, List.all_eq_true, List.mem_range, decide_eq_true_eq]
    rw [flat_forall_iff A.nRows A.nCols
      (fun i => A.data i - B.data i < tol ∧ A.data i - B.data i > -tol)]
    constructor
    · intro h r hr c hc
      have := h r hr c hc
      rw [abs_lt]
      unfold Mat.get
      rw [← hC]
      exact ⟨this.2, this.1⟩
    · intro h r hr c hc
      have := h r hr c hc
      rw [abs_lt] at this
      unfold Mat.get at this
      rw [← hC] at this
      exact ⟨this.2, this.1⟩
  · intro A B tol h
    unfold Mat.almostEquals
    rw [if_pos h]
  · intro A B tol hR hC
    unfold Mat.almostEqualsC
    rw [if_neg (by omega)]
    simp only [Except.ok.injEq, List.all_eq_true, List.mem_range, decide_eq_true_eq]
    rw [flat_forall_iff A.nRows A.nCols
      (fun i => (A.data i).1 - (B.data i).1 < tol.1 ∧ (A.data i).1 - (B.data i).1 > -tol.1 ∧
        (A.data i).2 - (B.data i).2 < tol.1 ∧ (A.data i).2 - (B.data i).2 > -tol.1)]
    constructor
    · intro h r hr c hc
      have := h r hr c hc
      unfold Mat.get
      rw [← hC]
      exact ⟨abs_lt.mpr ⟨this.2.1, this.1⟩, abs_lt.mpr ⟨this.2.2.2, this.2.2.1⟩⟩
    · intro h r hr c hc
      have := h r hr c hc
      unfold Mat.get at this
      rw [← hC] at this
      obtain ⟨h1, h2⟩ := this
      rw [abs_lt] at h1 h2
      exact ⟨h1.2, h1.1, h2.2, h2.1⟩
  · intro A B tol h
    unfold Mat.almostEqualsC
    rw [if_pos h]

/-- Witness for C6: two concrete 1x2 rational matrices are almost equal within 1,
and a 1x2 versus 2x1 comparison throws. -/
theorem almostEquals_characterization_witness :
    (Mat.almostEquals ⟨1, 2, fun i => [(1:ℚ), 2].getD i 0⟩
       ⟨1, 2, fun i => [(3:ℚ)/2, 2].getD i 0⟩ 1 = .ok true) ∧
    (Mat.almostEquals ⟨1, 2, fun _ => (0:ℚ)⟩ ⟨2, 1, fun _ => (0:ℚ)⟩ 1 =
      .error "Attepting to compare matrices of different sizes!") := by
  constructor
  · rw [(almostEquals_characterization.1 ⟨1, 2, fun i => [(1:ℚ), 2].getD i 0⟩
      ⟨1, 2, fun i => [(3:ℚ)/2, 2].getD i 0⟩ 1 rfl rfl)]
    intro r hr c hc
    interval_cases r
    interval_cases c
    · norm_num [Mat.get, abs_lt]
    · norm_num [Mat.get, abs_lt]
  · exact almostEquals_characterization.2.1 _ _ 1 (by right; decide)

/-- C2: for every 3x3 matrix with nonzero determinant, `inverse` takes the
closed-form cofactor/determinant branch, and the product `inverse(M) * M`
(computed by `multiply`) is exactly the 3x3 identity under exact rational
arithmetic. -/
theorem inverse3_times_M_is_identity (M : Mat ℚ) (hR : M.nRows = 3) (hC : M.nCols = 3)
    (hdet : det3 M ≠ 0) (solver : EigenSolverOut) :
    M.inverse solver = .ok (inverse3 M) ∧
    (inverse3 M).multiply M = .ok (mulMat (inverse3 M) M) ∧
    ∀ i j, i < 3 → j < 3 →
      (mulMat (inverse3 M) M).get i j = if i = j then (1 : ℚ) else 0 := by
  obtain ⟨R, C, d⟩ := M
  simp only [Mat.nRows] at hR
  simp only [Mat.nCols] at hC
  subst hR
  subst hC
  refine ⟨by simp [Mat.inverse], by simp [Mat.multiply, inverse3], ?_⟩
  intro i j hi hj
  have hrange : List.range 3 = [0, 1, 2] := rfl
  interval_cases i <;> interval_cases j
  all_goals simp [Mat.get, mulMat, mulEntry, inverse3, hrange, List.foldl, mkMatrix_data]
  all_goals field_simp
  all_goals first
  | (simp only [det3]; ring)
  | ring

/-- Witness for C2 at the spec's own scenario M = [[2,0,1],[3,1,0],[0,4,1]]
(determinant 14): `inverse` takes the closed-form branch and the product with M
has 1 on a diagonal cell and 0 off the diagonal. -/
theorem inverse3_times_M_is_identity_witness :
    det3 ⟨3, 3, fun i => [(2:ℚ), 0, 1, 3, 1, 0, 0, 4, 1].getD i 0⟩ ≠ 0 ∧
    (mulMat (inverse3 ⟨3, 3, fun i => [(2:ℚ), 0, 1, 3, 1, 0, 0, 4, 1].getD i 0⟩)
       ⟨3, 3, fun i => [(2:ℚ), 0, 1, 3, 1, 0, 0, 4, 1].getD i 0⟩).get 0 0 = 1 ∧
    (mulMat (inverse3 ⟨3, 3, fun i => [(2:ℚ), 0, 1, 3, 1, 0, 0, 4, 1].getD i 0⟩)
       ⟨3, 3, fun i => [(2:ℚ), 0, 1, 3, 1, 0, 0, 4, 1].getD i 0⟩).get 2 1 = 0 := by
  have hdet : det3 ⟨3, 3, fun i => [(2:ℚ), 0, 1, 3, 1, 0, 0, 4, 1].getD i 0⟩ ≠ 0 := by
    norm_num [det3]
  have h := inverse3_times_M_is_identity
    ⟨3, 3, fun i => [(2:ℚ), 0, 1, 3, 1, 0, 0, 4, 1].getD i 0⟩ rfl rfl hdet
    ⟨fun _ => 0, fun _ => 0, fun _ => 0, 0⟩
  refine ⟨hdet, ?_, ?_⟩
  · rw [h.2.2 0 0 (by decide) (by decide)]
    simp
  · rw [h.2.2 2 1 (by decide) (by decide)]
    simp

theorem sliceForEach_untouched (f : ℚ → ℚ) (b s : Nat) (buf : Nat → ℚ) (count j : Nat)
    (h : ∀ t, t < count → j ≠ b + t * s) : sliceForEach f b s buf count j = buf j := by
  induction count with
  | zero => rfl
  | succ n ih =>
      simp only [sliceForEach]
      rw [if_neg (h n (by omega))]
      exact ih fun t ht => h t (by omega)

theorem sliceForEach_at (f : ℚ → ℚ) (b s : Nat) (hs : 0 < s) (buf : Nat → ℚ)
    (count i : Nat) (hi : i < count) :
    sliceForEach f b s buf count (b + i * s) = f (buf (b + i * s)) := by
  induction count with
  | zero => omega
  | succ n ih =>
      simp only [sliceForEach]
      by_cases hin : i = n
      · subst hin
        rw [if_pos rfl]
        congr 1
        apply sliceForEach_untouched
        intro t ht heq
        have hts : t * s = i * s := by omega
        have := Nat.eq_of_mul_eq_mul_right hs hts
        omega
      · rw [if_neg ?_]
        · exact ih (by omega)
        · intro hEq
          have hts : i * s = n * s := by omega
          have := Nat.eq_of_mul_eq_mul_right hs hts
          omega

/-- C7: slice-with-slice arithmetic (subtraction into a fresh row matrix, compound
subtraction, compound addition) succeeds exactly when the two slices have equal
sizes and both are contiguous (stride 1), throwing otherwise; scalar arithmetic on
a slice touches every strided element (with no contiguity requirement) and nothing
else. -/
theorem slice_ops_characterization :
    (∀ (a b : SliceIt) (bufA bufB : Nat → ℚ),
      ((a.subSlice bufA b bufB).isOk = true ↔
        a.size = b.size ∧ a.stride = 1 ∧ b.stride = 1) ∧
      ((a.subAssignSlice bufA b bufB).isOk = true ↔
        a.size = b.size ∧ a.stride = 1 ∧ b.stride = 1) ∧
      ((a.addAssignSlice bufA b bufB).isOk = true ↔
        a.size = b.size ∧ a.stride = 1 ∧ b.stride = 1)) ∧
    (∀ (s : SliceIt) (buf : Nat → ℚ) (val : ℚ), 0 < s.stride →
      ∀ i, i < s.size →
        (s.mulScalar buf val) (s.begin_idx + i * s.stride) =
          buf (s.begin_idx + i * s.stride) * val ∧
        (s.addScalar buf val) (s.begin_idx + i * s.stride) =
          buf (s.begin_idx + i * s.stride) + val ∧
        (s.subScalar buf val) (s.begin_idx + i * s.stride) =
          buf (s.begin_idx + i * s.stride) - val ∧
        (s.divScalar buf val) (s.begin_idx + i * s.stride) =
          buf (s.begin_idx + i * s.stride) / val) ∧
    (∀ (s : SliceIt) (buf : Nat → ℚ) (val : ℚ) (j : Nat),
      (∀ i, i < s.size → j ≠ s.begin_idx + i * s.stride) →
        (s.mulScalar buf val) j = buf j ∧ (s.addScalar buf val) j = buf j ∧
        (s.subScalar buf val) j = buf j ∧ (s.divScalar buf val) j = buf j) := by
  refine ⟨?_, ?_, ?_⟩
  · intro a b bufA bufB
    refine ⟨?_, ?_, ?_⟩
    · constructor
      · intro hM
        unfold SliceIt.subSlice at hM
        split_ifs at hM with h1 h2 h3
        · simp [Except.isOk, Except.toBool] at hM
        · simp [Except.isOk, Except.toBool] at hM
        · simp [Except.isOk, Except.toBool] at hM
        · omega
      · rintro ⟨hsz, hsa, hsb⟩
        unfold SliceIt.subSlice
        rw [if_neg (by omega), if_neg (by omega), if_neg (by omega)]
        rfl
    · constructor
      · intro hg
        unfold SliceIt.subAssignSlice at hg
        split_ifs at hg with h1 h2 h3
        · simp [Except.isOk, Except.toBool] at hg
        · simp [Except.isOk, Except.toBool] at hg
        · simp [Except.isOk, Except.toBool] at hg
        · omega
      · rintro ⟨hsz, hsa, hsb⟩
        unfold SliceIt.subAssignSlice
        rw [if_neg (by omega), if_neg (by omega), if_neg (by omega)]
        rfl
    · constructor
      · intro hg
        unfold SliceIt.addAssignSlice at hg
        split_ifs at hg with h1 h2 h3
        · simp [Except.isOk, Except.toBool] at hg
        · simp [Except.isOk, Except.toBool] at hg
        · simp [Except.isOk, Except.toBool] at hg
        · omega
      · rintro ⟨hsz, hsa, hsb⟩
        unfold SliceIt.addAssignSlice
        rw [if_neg (by omega), if_neg (by omega), if_neg (by omega)]
        rfl
  · intro s buf val hs i hi
    refine ⟨?_, ?_, ?_, ?_⟩
    · exact sliceForEach_at _ _ _ hs buf _ i hi
    · exact sliceForEach_at _ _ _ hs buf _ i hi
    · exact sliceForEach_at _ _ _ hs buf _ i hi
    · rw [div_eq_mul_inv, ← one_div]
      exact sliceForEach_at _ _ _ hs buf _ i hi
  · intro s buf val j hj
    exact ⟨sliceForEach_untouched _ _ _ buf _ j hj, sliceForEach_untouched _ _ _ buf _ j hj,
      sliceForEach_untouched _ _ _ buf _ j hj, sliceForEach_untouched _ _ _ buf _ j hj⟩

/-- Witness for C7: two contiguous size-3 slices subtract fine, a stride-2 slice is
rejected by slice-with-slice subtraction, and scalar addition on a stride-2 slice
updates the strided element `2 = 0 + 1 * 2`. -/
theorem slice_ops_characterization_witness :
    (SliceIt.subSlice ⟨0, 3, 1⟩ (fun _ => (0:ℚ)) ⟨3, 6, 1⟩ (fun _ => (0:ℚ))).isOk = true ∧
    (SliceIt.subSlice ⟨0, 6, 2⟩ (fun _ => (0:ℚ)) ⟨0, 3, 1⟩ (fun _ => (0:ℚ))).isOk = false ∧
    (SliceIt.addScalar ⟨0, 6, 2⟩ (fun i => (i : ℚ)) 5) (0 + 1 * 2) = 7 := by
  refine ⟨?_, ?_, ?_⟩
  · exact ((slice_ops_characterization.1 _ _ _ _).1).mpr ⟨by decide, rfl, rfl⟩
  · have h := ((slice_ops_characterization.1 ⟨0, 6, 2⟩ ⟨0, 3, 1⟩
      (fun _ => (0:ℚ)) (fun _ => (0:ℚ))).1)
    rcases hb : (SliceIt.subSlice ⟨0, 6, 2⟩ (fun _ => (0:ℚ)) ⟨0, 3, 1⟩ (fun _ => (0:ℚ))).isOk with _ | _
    · rfl
    · exact absurd (h.mp hb).2.1 (by decide)
  · have h := (slice_ops_characterization.2.1 ⟨0, 6, 2⟩ (fun i => (i : ℚ)) 5
      (by decide) 1 (by decide)).2.1
    rw [h]
    norm_num

/-- C1: for every matrix with at least one element, `transposeInPlace` leaves the
dimensions swapped (C x R) and, for every valid index pair (r,c) of the original,
the element at (c,r) of the result equals the element at (r,c) of the original:
the cycle-following in-place permutation computes the exact transpose. -/
theorem transposeInPlace_is_transpose {α : Type} (M : Mat α)
    (hne : 1 ≤ M.nRows * M.nCols) :
    (M.transposeInPlace).nRows = M.nCols ∧ (M.transposeInPlace).nCols = M.nRows ∧
    ∀ r c, r < M.nRows → c < M.nCols → (M.transposeInPlace).get c r = M.get r c :=
  ⟨rfl, rfl, fun r c hr hc => transposeInPlace_get M r c hr hc⟩

/-- Witness for C1: transposing the 2x3 matrix [[0,1,2],[3,4,5]] in place gives a
3x2 matrix whose (2,1) cell holds 5, the original (1,2) cell. -/
theorem transposeInPlace_is_transpose_witness :
    1 ≤ (⟨2, 3, fun i => i⟩ : Mat Nat).nRows * (⟨2, 3, fun i => i⟩ : Mat Nat).nCols ∧
    (Mat.transposeInPlace (⟨2, 3, fun i => i⟩ : Mat Nat)).nRows = 3 ∧
    (Mat.transposeInPlace (⟨2, 3, fun i => i⟩ : Mat Nat)).get 2 1 = 5 := by
  have h := transposeInPlace_is_transpose (⟨2, 3, fun i => i⟩ : Mat Nat) (by decide)
  refine ⟨by decide, h.1, ?_⟩
  rw [h.2.2 1 2 (by decide) (by decide)]
  decide

/-- C8: for every matrix, `transpose` (a transposed deep copy built by cloning and
transposing the clone in place) applied twice returns the original matrix, in
dimensions and element for element. -/
theorem transpose_involutive {α : Type} [Zero α] (M : Mat α) :
    (M.transpose.transpose).nRows = M.nRows ∧ (M.transpose.transpose).nCols = M.nCols ∧
    ∀ r c, r < M.nRows → c < M.nCols → (M.transpose.transpose).get r c = M.get r c := by
  refine ⟨rfl, rfl, ?_⟩
  intro r c hr hc
  have h2 : (M.transpose.transpose).get r c = (M.transpose).clone.get c r :=
    transposeInPlace_get (M.transpose).clone c r hc hr
  have h3 : (M.transpose).clone.get c r = (M.transpose).get c r :=
    clone_get M.transpose c r hc hr
  have h1 : (M.transpose).get c r = M.clone.get r c :=
    transposeInPlace_get M.clone r c hr hc
  have h4 : M.clone.get r c = M.get r c := clone_get M r c hr hc
  exact h2.trans (h3.trans (h1.trans h4))

/-- Witness for C8: double transpose of the 3x2 matrix with entries 10..15 restores
the cell (2,1) value 15. -/
theorem transpose_involutive_witness :
    ((⟨3, 2, fun i => 10 + i⟩ : Mat Nat).transpose.transpose).get 2 1 = 15 := by
  have h := transpose_involutive (⟨3, 2, fun i => 10 + i⟩ : Mat Nat)
  rw [h.2.2 2 1 (by decide) (by decide)]
  decide

theorem eigenTuples_length (R : Nat) (solver : EigenSolverOut) :
    (eigenTuples R solver).length = R := by
  simp [eigenTuples]

theorem sortedTuples_perm (R : Nat) (solver : EigenSolverOut) (order : SortOrder) :
    (sortedTuples R solver order).Perm (eigenTuples R solver) := by
  unfold sortedTuples
  cases order
  · exact List.mergeSort_perm _ _
  · exact (List.reverse_perm _).trans (List.mergeSort_perm _ _)

theorem sortedTuples_length (R : Nat) (solver : EigenSolverOut) (order : SortOrder) :
    (sortedTuples R solver order).length = R :=
  ((sortedTuples_perm R solver order).length_eq).trans (eigenTuples_length R solver)

theorem sortedTuples_pairwise_asc (R : Nat) (solver : EigenSolverOut) :
    List.Pairwise (fun x y : EigenInfo => x.valueReal ≤ y.valueReal)
      (sortedTuples R solver .Ascending) := by
  unfold sortedTuples
  have h := @List.sorted_mergeSort EigenInfo
    (fun x y : EigenInfo => decide (x.valueReal ≤ y.valueReal))
    (fun a b c hab hbc => by
      simp only [decide_eq_true_eq] at hab hbc ⊢
      exact le_trans hab hbc)
    (fun a b => by
      simp only [Bool.or_eq_true, decide_eq_true_eq]
      exact le_total _ _)
    (eigenTuples R solver)
  exact h.imp fun hab => by simpa using hab

theorem sortedTuples_pairwise_desc (R : Nat) (solver : EigenSolverOut) :
    List.Pairwise (fun x y : EigenInfo => y.valueReal ≤ x.valueReal)
      (sortedTuples R solver .Descending) := by
  have hasc := sortedTuples_pairwise_asc R solver
  unfold sortedTuples at hasc ⊢
  rw [List.pairwise_reverse]
  exact hasc

theorem diagResult_evalsReal_get (R : Nat) (solver : EigenSolverOut) (order : SortOrder)
    (i : Nat) (hi : i < R) :
    (diagResult R solver order).1.get i 0 =
      ((sortedTuples R solver order).getD i default).valueReal := by
  unfold diagResult Mat.get
  dsimp only
  rw [show i * 1 + 0 = i by omega, if_pos hi]

theorem diagResult_evalsImag_get (R : Nat) (solver : EigenSolverOut) (order : SortOrder)
    (i : Nat) (hi : i < R) :
    (diagResult R solver order).2.1.get i 0 =
      ((sortedTuples R solver order).getD i default).valueImag := by
  unfold diagResult Mat.get
  dsimp only
  rw [show i * 1 + 0 = i by omega, if_pos hi]

theorem diagResult_evecs_get (R : Nat) (solver : EigenSolverOut) (order : SortOrder)
    (i j : Nat) (hi : i < R) (hj : j < R) :
    (diagResult R solver order).2.2.get i j =
      ((sortedTuples R solver order).getD j default).vector.getD i 0 := by
  unfold diagResult
  dsimp only
  rw [transposeInPlace_get _ j i hj hi]
  unfold Mat.get
  dsimp only
  rw [if_pos (flat_index_lt hj hi), flat_div hi, flat_mod hi]

theorem sortedTuples_getD_valueReal (R : Nat) (solver : EigenSolverOut)
    (order : SortOrder) (j : Nat) (hj : j < R) :
    ∃ v, v < R ∧
      ((sortedTuples R solver order).getD j default).valueReal = solver.evalsReal v ∧
      ((sortedTuples R solver order).getD j default).valueImag = solver.evalsImag v := by
  have hlen := sortedTuples_length R solver order
  have hj2 : j < (sortedTuples R solver order).length := by omega
  rw [List.getD_eq_getElem _ _ hj2]
  have hmem : (sortedTuples R solver order)[j] ∈ sortedTuples R solver order :=
    List.getElem_mem hj2
  have hmem2 := (sortedTuples_perm R solver order).mem_iff.mp hmem
  unfold eigenTuples at hmem2
  rw [List.mem_map] at hmem2
  obtain ⟨v, hv, heq⟩ := hmem2
  rw [List.mem_range] at hv
  exact ⟨v, hv, by rw [← heq], by rw [← heq]⟩

/-- C4 (amended): `diagonalize` sorts the eigenpairs by the real eigenvalue
component, ascending or descending per the requested SortOrder, but only weakly
monotone (equal eigenvalues may repeat, so the order is not strict); the sorted
tuple list is a permutation of the solver's eigenpairs and the columns of the
eigenvector matrix are reassigned consistently with it; diagonalize fails exactly
when the matrix is non-square or the eigensolver reports an error. -/
theorem diagonalize_characterization :
    (∀ (M : Mat ℚ) (solver : EigenSolverOut) (order : SortOrder),
      ((M.diagonalize solver order).isOk = false ↔
        (M.nRows ≠ M.nCols ∨ solver.info ≠ 0))) ∧
    (∀ (M : Mat ℚ) (solver : EigenSolverOut) (order : SortOrder),
      M.nRows = M.nCols → solver.info = 0 →
      M.diagonalize solver order = .ok (diagResult M.nRows solver order)) ∧
    (∀ (R : Nat) (solver : EigenSolverOut) (i : Nat), i + 1 < R →
      (diagResult R solver .Ascending).1.get i 0 ≤
        (diagResult R solver .Ascending).1.get (i + 1) 0 ∧
      (diagResult R solver .Descending).1.get (i + 1) 0 ≤
        (diagResult R solver .Descending).1.get i 0) ∧
    (∀ (R : Nat) (solver : EigenSolverOut) (order : SortOrder),
      (sortedTuples R solver order).Perm (eigenTuples R solver) ∧
      ∀ j, j < R →
        (diagResult R solver order).1.get j 0 =
          ((sortedTuples R solver order).getD j default).valueReal ∧
        (diagResult R solver order).2.1.get j 0 =
          ((sortedTuples R solver order).getD j default).valueImag ∧
        ∀ i, i < R → (diagResult R solver order).2.2.get i j =
          ((sortedTuples R solver order).getD j default).vector.getD i 0) := by
  refine ⟨?_, ?_, ?_, ?_⟩
  · intro M solver order
    unfold Mat.diagonalize
    split_ifs with h1 h2
    · simp [Except.isOk, Except.toBool, h1]
    · simp [Except.isOk, Except.toBool, h1, h2]
    · simp [Except.isOk, Except.toBool, h1, h2]
  · intro M solver order hsq hinfo
    unfold Mat.diagonalize
    rw [if_neg (by omega), if_neg (by simp [hinfo])]
  · intro R solver i hi
    have hlenA := sortedTuples_length R solver .Ascending
    have hlenD := sortedTuples_length R solver .Descending
    constructor
    · rw [diagResult_evalsReal_get R solver .Ascending i (by omega),
        diagResult_evalsReal_get R solver .Ascending (i + 1) (by omega)]
      have hp := sortedTuples_pairwise_asc R solver
      have h := List.pairwise_iff_getElem.mp hp i (i + 1) (by omega) (by omega) (by omega)
      rw [List.getD_eq_getElem _ _ (by omega), List.getD_eq_getElem _ _ (by omega)]
      exact h
    · rw [diagResult_evalsReal_get R solver .Descending i (by omega),
        diagResult_evalsReal_get R solver .Descending (i + 1) (by omega)]
      have hp := sortedTuples_pairwise_desc R solver
      have h := List.pairwise_iff_getElem.mp hp i (i + 1) (by omega) (by omega) (by omega)
      rw [List.getD_eq_getElem _ _ (by omega), List.getD_eq_getElem _ _ (by omega)]
      exact h
  · intro R solver order
    refine ⟨sortedTuples_perm R solver order, ?_⟩
    intro j hj
    exact ⟨diagResult_evalsReal_get R solver order j hj,
      diagResult_evalsImag_get R solver order j hj,
      fun i hi => diagResult_evecs_get R solver order i j hi hj⟩

/-- C4 counterexample: with the 2x2 identity matrix and the modelled eigensolver
returning the eigenvalue 1 twice (a repeated eigenvalue, `info = 0`),
`diagonalize` succeeds and returns the eigenvalue sequence 1, 1, which is not
strictly monotone: the claimed strict monotonicity fails whenever eigenvalues
repeat. -/
theorem diagonalize_strict_monotonicity_cex :
    id2.diagonalize solverOnes .Ascending =
      .ok (diagResult 2 solverOnes .Ascending) ∧
    (diagResult 2 solverOnes .Ascending).1.get 0 0 = 1 ∧
    (diagResult 2 solverOnes .Ascending).1.get 1 0 = 1 ∧
    ¬ ((diagResult 2 solverOnes .Ascending).1.get 0 0 <
        (diagResult 2 solverOnes .Ascending).1.get 1 0) := by
  have hval : ∀ j, j < 2 →
      ((sortedTuples 2 solverOnes .Ascending).getD j default).valueReal = 1 := by
    intro j hj
    obtain ⟨v, _, hre, _⟩ := sortedTuples_getD_valueReal 2 solverOnes .Ascending j hj
    rw [hre]
    rfl
  have h0 : (diagResult 2 solverOnes .Ascending).1.get 0 0 = 1 := by
    rw [diagResult_evalsReal_get 2 solverOnes .Ascending 0 (by omega)]
    exact hval 0 (by omega)
  have h1 : (diagResult 2 solverOnes .Ascending).1.get 1 0 = 1 := by
    rw [diagResult_evalsReal_get 2 solverOnes .Ascending 1 (by omega)]
    exact hval 1 (by omega)
  refine ⟨?_, h0, h1, ?_⟩
  · unfold Mat.diagonalize
    rw [if_neg (by decide), if_neg (by decide)]
    rfl
  · rw [h0, h1]
    exact lt_irrefl 1

/-- Witness for C4 at concrete inputs: a 1x2 matrix makes diagonalize fail, the 2x2
identity with a successful solver makes it succeed, and the ascending output of the
two-eigenvalue solver is non-decreasing at the adjacent pair. -/
theorem diagonalize_characterization_witness :
    ((⟨1, 2, fun _ => (0:ℚ)⟩ : Mat ℚ).diagonalize solverOnes .Ascending).isOk = false ∧
    id2.diagonalize solverOnes .Ascending = .ok (diagResult id2.nRows solverOnes .Ascending) ∧
    (diagResult 2 solverOnes .Ascending).1.get 0 0 ≤
      (diagResult 2 solverOnes .Ascending).1.get 1 0 := by
  refine ⟨?_, ?_, ?_⟩
  · exact (diagonalize_characterization.1 _ solverOnes .Ascending).mpr (Or.inl (by decide))
  · exact diagonalize_characterization.2.1 id2 solverOnes .Ascending rfl rfl
  · exact (diagonalize_characterization.2.2.1 2 solverOnes 0 (by omega)).1

theorem symmetricWithin_of_eq (M : Mat ℚ) (τ : ℚ) (hτ : 0 ≤ τ)
    (h : ∀ row col, row < M.nRows → col < row →
      M.data (row * M.nCols + col) = M.data (col * M.nCols + row)) :
    M.symmetricWithin τ = true := by
  unfold Mat.symmetricWithin
  rw [List.all_eq_true]
  intro row hrow
  rw [List.all_eq_true]
  intro col hcol
  rw [List.mem_range] at hrow hcol
  rw [decide_eq_true_eq, h row col hrow hcol, sub_self, abs_zero]
  exact hτ

theorem diagResult_imag_nearZero (M : Mat ℚ) (solver : EigenSolverOut)
    (himag : ∀ i, i < M.nRows → |solver.evalsImag i| ≤ defaultThreshold) :
    ((diagResult M.nRows solver .Ascending).2.1).isNearZero defaultThreshold = true := by
  unfold Mat.isNearZero
  rw [List.all_eq_true]
  intro i hi
  rw [List.mem_range] at hi
  rw [decide_eq_true_eq]
  have hiR : i < M.nRows := by
    have h1 : (diagResult M.nRows solver .Ascending).2.1.nRows = M.nRows := rfl
    have h2 : (diagResult M.nRows solver .Ascending).2.1.nCols = 1 := rfl
    rw [h1, h2] at hi
    omega
  show |(diagResult M.nRows solver .Ascending).2.1.data i| ≤ defaultThreshold
  unfold diagResult
  dsimp only
  rw [if_pos hiR]
  obtain ⟨v, hv, _, him⟩ := sortedTuples_getD_valueReal M.nRows solver .Ascending i hiR
  rw [him]
  exact himag v hv

theorem applyOperation_ok (M : Mat ℚ) (solver : EigenSolverOut) (f : ℚ → ℚ)
    (hsq : M.nRows = M.nCols) (hinfo : solver.info = 0)
    (hsym : M.symmetricWithin defaultThreshold = true)
    (himag : ∀ i, i < M.nRows → |solver.evalsImag i| ≤ defaultThreshold) :
    (M.applyOperation solver f).isOk = true := by
  unfold Mat.applyOperation
  have hdiag : M.diagonalize solver .Ascending = .ok (diagResult M.nRows solver .Ascending) := by
    unfold Mat.diagonalize
    rw [if_neg (by omega), if_neg (by simp [hinfo])]
  rw [hsym]
  rw [if_neg (by simp)]
  rw [hdiag]
  show (Except.bind _ _).isOk = true
  rw [Except.bind]
  dsimp only
  rw [diagResult_imag_nearZero M solver himag]
  rw [if_neg (by simp)]
  unfold Mat.multiply
  rw [if_neg fun h => h rfl]
  rfl

/-- C3 (amended): for square matrices that are not 3x3, `inverse` requires symmetry
(it throws on an asymmetric matrix), throws when the eigensolver reports an error,
rejects complex eigenvalues, and otherwise succeeds by inverting each eigenvalue
element-wise with NO guard threshold on the eigenvalue magnitudes and recomposing
V·diag(1/λ)·Vᵀ: in particular, a symmetric singular matrix (zero eigenvalue) does
not make inverse fail. -/
theorem inverse_general_path :
    (∀ (M : Mat ℚ) (solver : EigenSolverOut), M.nRows ≠ M.nCols →
      (M.inverse solver).isOk = false) ∧
    (∀ (M : Mat ℚ) (solver : EigenSolverOut), M.nRows = M.nCols → M.nRows ≠ 3 →
      M.symmetricWithin defaultThreshold = false → (M.inverse solver).isOk = false) ∧
    (∀ (M : Mat ℚ) (solver : EigenSolverOut), M.nRows = M.nCols → M.nRows ≠ 3 →
      M.symmetricWithin defaultThreshold = true → solver.info ≠ 0 →
      (M.inverse solver).isOk = false) ∧
    (∀ (M : Mat ℚ) (solver : EigenSolverOut), M.nRows = M.nCols → M.nRows ≠ 3 →
      M.symmetricWithin defaultThreshold = true → solver.info = 0 →
      (∀ i, i < M.nRows → |solver.evalsImag i| ≤ defaultThreshold) →
      (M.inverse solver).isOk = true) := by
  refine ⟨?_, ?_, ?_, ?_⟩
  · intro M solver hne
    unfold Mat.inverse
    rw [if_pos hne]
    rfl
  · intro M solver hsq h3 hsym
    unfold Mat.inverse
    rw [if_neg (by omega), if_neg h3]
    unfold Mat.applyOperation
    rw [hsym]
    rw [if_pos (by simp)]
    rfl
  · intro M solver hsq h3 hsym hinfo
    unfold Mat.inverse
    rw [if_neg (by omega), if_neg h3]
    unfold Mat.applyOperation
    rw [hsym]
    rw [if_neg (by simp)]
    have hdiag : M.diagonalize solver .Ascending =
        .error "Something went wrong during diagonalization!" := by
      unfold Mat.diagonalize
      rw [if_neg (by omega), if_pos hinfo]
    rw [hdiag]
    rfl
  · intro M solver hsq h3 hsym hinfo himag
    unfold Mat.inverse
    rw [if_neg (by omega), if_neg h3]
    exact applyOperation_ok M solver _ hsq hinfo hsym himag

/-- C3 counterexample: the 2x2 zero matrix is symmetric and singular, and the
modelled eigensolver reports the eigenvalue 0 twice with success; `inverse`
nevertheless succeeds (the code inverts each eigenvalue with `element = 1 /
element` and never checks any magnitude threshold), refuting the claim that
inverse fails when an eigenvalue is below a guard threshold. -/
theorem inverse_no_eigenvalue_guard_cex : (zero2.inverse solverZeros).isOk = true := by
  have hsym : zero2.symmetricWithin defaultThreshold = true := by
    apply symmetricWithin_of_eq
    · norm_num [defaultThreshold]
    · intro row col _ _
      rfl
  have himag : ∀ i, i < zero2.nRows → |solverZeros.evalsImag i| ≤ defaultThreshold := by
    intro i _
    show |(0 : ℚ)| ≤ defaultThreshold
    norm_num [defaultThreshold]
  unfold Mat.inverse
  rw [if_neg (by decide), if_neg (by decide)]
  exact applyOperation_ok zero2 solverZeros _ rfl rfl hsym himag

/-- Witness for C3 at concrete inputs: a non-square matrix makes inverse fail, and
the 2x2 identity (symmetric, solver succeeding with real eigenvalues) makes the
generic spectral branch of inverse succeed. -/
theorem inverse_general_path_witness :
    ((⟨2, 3, fun _ => (0:ℚ)⟩ : Mat ℚ).inverse solverOnes).isOk = false ∧
    (id2.inverse solverOnes).isOk = true := by
  constructor
  · exact inverse_general_path.1 _ solverOnes (by decide)
  · apply inverse_general_path.2.2.2 id2 solverOnes rfl (by decide)
    · apply symmetricWithin_of_eq
      · norm_num [defaultThreshold]
      · intro row col hrow hcol
        have h2 : row < 2 := hrow
        interval_cases row <;> interval_cases col <;> rfl
    · rfl
    · intro i _
      show |(0 : ℚ)| ≤ defaultThreshold
      norm_num [defaultThreshold]

theorem hwriteBlock_mem_low (h : Heap) (base n : Nat) (src : Nat → ℚ) (a : Nat)
    (ha : a < base) : (hwriteBlock h base n src).mem a = h.mem a := by
  show (if base ≤ a ∧ a < base + n then src (a - base) else h.mem a) = h.mem a
  rw [if_neg (by omega)]

theorem halloc_mem_low (h : Heap) (n a : Nat) (ha : a < h.next) :
    (halloc h n).1.mem a = h.mem a := by
  show (if h.next ≤ a ∧ a < h.next + n then 0 else h.mem a) = h.mem a
  rw [if_neg (by omega)]

theorem hclone_mem (h : Heap) (v : MView) (a : Nat) (ha : a < h.next) :
    (hclone h v).1.mem a = h.mem a := by
  unfold hclone
  simp only [halloc, hwriteBlock]
  rw [if_neg (by omega), if_neg (by omega)]

theorem htranspose_mem (h : Heap) (v : MView) (a : Nat) (ha : a < h.next) :
    (htranspose h v).1.mem a = h.mem a := by
  unfold htranspose htransposeInPlace hclone
  simp only [halloc, hwriteBlock]
  rw [if_neg (by omega), if_neg (by omega), if_neg (by omega)]

theorem hdiagonalize_mem (h : Heap) (v : MView) (solver : EigenSolverOut)
    (order : SortOrder) (a : Nat) (ha : a < h.next) :
    (hdiagonalize h v solver order).2.mem a = h.mem a := by
  unfold hdiagonalize
  cases hd : (v.toMat h).diagonalize solver order with
  | error e =>
      simp only [halloc, hwriteBlock]
      repeat rw [if_neg (by omega)]
  | ok t =>
      obtain ⟨re, im, vects⟩ := t
      simp only [halloc, hwriteBlock]
      repeat rw [if_neg (by omega)]

theorem hdiagonalize_next (h : Heap) (v : MView) (solver : EigenSolverOut)
    (order : SortOrder) : h.next ≤ (hdiagonalize h v solver order).2.next := by
  unfold hdiagonalize
  cases hd : (v.toMat h).diagonalize solver order with
  | error e =>
      simp only [halloc, hwriteBlock]
      omega
  | ok t =>
      obtain ⟨re, im, vects⟩ := t
      simp only [halloc, hwriteBlock]
      omega

theorem hinverse_mem (h : Heap) (v : MView) (solver : EigenSolverOut) (a : Nat)
    (ha : a < h.next) : (hinverse h v solver).2.mem a = h.mem a := by
  unfold hinverse
  by_cases hne : v.nRows ≠ v.nCols
  · rw [if_pos hne]
  · rw [if_neg hne]
    by_cases h3 : v.nRows = 3
    · rw [if_pos h3]
      dsimp only
      rw [hwriteBlock_mem_low _ _ _ _ a (by show a < h.next; omega),
        halloc_mem_low _ _ a ha]
    · rw [if_neg h3]
      dsimp only
      have hnext1 : ((halloc h (v.nRows * v.nRows)).1).next = h.next + v.nRows * v.nRows :=
        rfl
      have hd1 : a < ((halloc h (v.nRows * v.nRows)).1).next := by omega
      have hdm := hdiagonalize_mem ((halloc h (v.nRows * v.nRows)).1) v solver .Ascending a hd1
      have hdn := hdiagonalize_next ((halloc h (v.nRows * v.nRows)).1) v solver .Ascending
      have hallocm := halloc_mem_low h (v.nRows * v.nRows) a ha
      cases hap : (v.toMat h).applyOperation solver (fun x => 1 / x) with
      | error e =>
          cases hd : (hdiagonalize ((halloc h (v.nRows * v.nRows)).1) v solver .Ascending).1 with
          | error e2 => rw [hdm, hallocm]
          | ok t => rw [hdm, hallocm]
      | ok res =>
          cases hd : (hdiagonalize ((halloc h (v.nRows * v.nRows)).1) v solver .Ascending).1 with
          | error e2 => rw [hdm, hallocm]
          | ok t =>
              have hblt : a <
                  (halloc (hdiagonalize ((halloc h (v.nRows * v.nRows)).1) v solver
                    .Ascending).2 (v.nRows * v.nRows)).2 := by
                show a < (hdiagonalize ((halloc h (v.nRows * v.nRows)).1) v solver
                  .Ascending).2.next
                omega
              rw [hwriteBlock_mem_low _ _ _ _ a hblt,
                halloc_mem_low _ _ a (by omega), hdm, hallocm]

/-- C9: the value-returning operations `clone`, `transpose`, `diagonalize` and
`inverse` are const: in the heap model they allocate fresh blocks (the
`Matrix(nRows, nCols)` constructors and the scratch `std::vector` copied by
`diagonalize` before the eigensolver call) and write only there, so every element
of the receiver matrix — and its dimensions, which live in the unchanged view —
is the same after the call. -/
theorem const_ops_leave_receiver_unchanged :
    ∀ (h : Heap) (v : MView) (solver : EigenSolverOut) (order : SortOrder),
      v.okIn h →
      ∀ r c, r < v.nRows → c < v.nCols →
        (v.toMat (hclone h v).1).get r c = (v.toMat h).get r c ∧
        (v.toMat (htranspose h v).1).get r c = (v.toMat h).get r c ∧
        (v.toMat (hdiagonalize h v solver order).2).get r c = (v.toMat h).get r c ∧
        (v.toMat (hinverse h v solver).2).get r c = (v.toMat h).get r c := by
  intro h v solver order hok r c hr hc
  have haddr : v.base + (r * v.nCols + c) < h.next := by
    have h1 := flat_index_lt hr hc
    unfold MView.okIn at hok
    omega
  exact ⟨hclone_mem h v _ haddr, htranspose_mem h v _ haddr,
    hdiagonalize_mem h v solver order _ haddr, hinverse_mem h v solver _ haddr⟩

/-- Witness for C9: a concrete heap holding a 2x2 matrix at base 0; cloning and
inverting leave the receiver cell (1,1) unchanged. -/
theorem const_ops_leave_receiver_unchanged_witness :
    (MView.okIn ⟨0, 2, 2⟩ ⟨fun _ => (0:ℚ), 10⟩) ∧
    ((MView.toMat ⟨0, 2, 2⟩ (hclone ⟨fun _ => (0:ℚ), 10⟩ ⟨0, 2, 2⟩).1).get 1 1 =
      (MView.toMat ⟨0, 2, 2⟩ ⟨fun _ => (0:ℚ), 10⟩).get 1 1) ∧
    ((MView.toMat ⟨0, 2, 2⟩
        (hinverse ⟨fun _ => (0:ℚ), 10⟩ ⟨0, 2, 2⟩ solverZeros).2).get 1 1 =
      (MView.toMat ⟨0, 2, 2⟩ ⟨fun _ => (0:ℚ), 10⟩).get 1 1) := by
  have hok : MView.okIn ⟨0, 2, 2⟩ ⟨fun _ => (0:ℚ), 10⟩ := by
    show 0 + 2 * 2 ≤ 10
    omega
  have h := const_ops_leave_receiver_unchanged ⟨fun _ => (0:ℚ), 10⟩ ⟨0, 2, 2⟩
    solverZeros .Ascending hok 1 1 (by decide) (by decide)
  exact ⟨hok, h.1, h.2.2.2⟩

end Helpme

